import Mathlib

/-!
# Dense state-vector simulator and Grover driver

Shallow embedding of `quantum_simulator.cpp` and `grovers_algorithm.cpp`.

* `cdouble` (`std::complex<double>`) is read in exact arithmetic: the array
  operations are written over an arbitrary field `K`, the parts that need
  `real`, `imag`, `sqrt` or `M_PI` over `ℂ` and `ℝ`.
* `std::vector<cdouble>` is a `List K`; an in-place method is a function from
  the object before the call to an `Outcome` holding the object after it, also
  when an exception leaves the call.
* `size_t` is a 64-bit word read as `Nat`.  The one place where a word can
  overflow is `size_t{1} << n`: `pow2` stops with `Fault.undefined_shift` when
  `n` is 64 or more.  Every other index the code computes is at most the size
  of a vector that exists, so no index arithmetic wraps.
* Constructing the amplitude vector can fail: `QuantumState.new` takes the
  limits of the platform as a `Machine` and ends in `std::length_error` or
  `std::bad_alloc` when `2 ^ n` amplitudes exceed them.  The copies of the
  (caller-held) list of marked indices are taken to succeed.
* `operator[]` is unchecked in C++; here a read or write outside the vector
  stops the operation with `Fault.out_of_bounds`, so that a normal return
  (`Outcome.ok`) also says that every access was inside the vector.
-/

namespace QSim

/-! ## Errors and outcomes -/

/-- What stops an operation: an exception the code throws (`std::out_of_range`,
`std::invalid_argument`), an exception of the vector constructor
(`std::length_error`, `std::bad_alloc`), or undefined behaviour: an unchecked
vector access outside `[0, size)`, a shift by the word size or more. -/
inductive Fault where
  | out_of_range
  | invalid_argument
  | out_of_bounds
  | length_error
  | bad_alloc
  | undefined_shift
  deriving DecidableEq

/-- How a call on an object ends: normal return with the object in state `s`, or
`e` stops it and the object is left in state `s`. -/
inductive Outcome (σ : Type) where
  | ok (s : σ)
  | thrown (e : Fault) (s : σ)
  deriving DecidableEq

/-- Sequencing: the next statement runs only after a normal return. -/
def Outcome.andThen {σ : Type} (o : Outcome σ) (f : σ → Outcome σ) : Outcome σ :=
  match o with
  | .ok s => f s
  | .thrown e s => .thrown e s

/-- State the object is left in. -/
def Outcome.state {σ : Type} : Outcome σ → σ
  | .ok s => s
  | .thrown _ s => s

/-- Lift of a change of the member `amp` to the enclosing object. -/
def Outcome.lift {σ τ : Type} (f : σ → τ) : Outcome σ → Outcome τ
  | .ok s => .ok (f s)
  | .thrown e s => .thrown e (f s)

/-- The loop `for (size_t i = i; i < N; i += inc) body(i)`. -/
def forLoop {σ : Type} (N inc : Nat) (hinc : 0 < inc) (body : Nat → σ → Outcome σ)
    (i : Nat) (s : σ) : Outcome σ :=
  if i < N then (body i s).andThen (forLoop N inc hinc body (i + inc)) else .ok s
termination_by N - i
decreasing_by omega

/-- The loop `for (auto x : xs) body(x)`. -/
def forEach {α σ : Type} (body : α → σ → Outcome σ) : List α → σ → Outcome σ
  | [], s => .ok s
  | x :: xs, s => (body x s).andThen (forEach body xs)

/-! ## Quantum state -/

/-- What the platform fixes for a `std::vector<cdouble>` (16-byte elements, 64-bit
address space): `max_size` is `std::vector<cdouble>::max_size()`, above which the
constructor throws `std::length_error`; `capacity` is the number of amplitudes the
allocator can provide, above which it throws `std::bad_alloc`. -/
structure Machine where
  max_size : Nat
  capacity : Nat
  max_size_lt : max_size < 2 ^ 60

/-- A 64-bit platform whose vector holds up to `PTRDIFF_MAX / 16` amplitudes and whose
allocator can provide `2 ^ 30` of them (16 GiB). -/
def lp64 : Machine :=
  { max_size := 2 ^ 59 - 1, capacity := 2 ^ 30, max_size_lt := by decide }

/-- The machine can hold a state of `n` qubits: `2 ^ n` amplitudes are within
`max_size` and within what the allocator provides. -/
def Machine.holds (m : Machine) (n : Nat) : Prop :=
  2 ^ n ≤ m.max_size ∧ 2 ^ n ≤ m.capacity

/-- `static inline size_t pow2(size_t n) { return size_t{1} << n; }`: the shift is
defined for `n` below the width of `size_t`. -/
def pow2 (n : Nat) : Except Fault Nat :=
  if n < 64 then .ok (1 <<< n) else .error .undefined_shift

/-- `struct QuantumState { size_t num_qubits; std::vector<cdouble> amp; }` -/
structure QuantumState (K : Type) where
  num_qubits : Nat
  amp : List K

section Generic
variable {K : Type}

/-- `size_t dim() const { return amp.size(); }` -/
def QuantumState.dim (psi : QuantumState K) : Nat := psi.amp.length

/-- Contents of `amp[i]` (`0` outside the vector); used to state results. -/
def QuantumState.get [Zero K] (psi : QuantumState K) (i : Nat) : K := psi.amp.getD i 0

/-- The constructor `std::vector<cdouble>(count, value)`. -/
def vector_fill (m : Machine) (count : Nat) (value : K) : Except Fault (List K) :=
  if count > m.max_size then .error .length_error
  else if count > m.capacity then .error .bad_alloc
  else .ok (List.replicate count value)

/-- `QuantumState::QuantumState(size_t n) : num_qubits(n), amp(pow2(n), 0)` -/
def QuantumState.new [Zero K] (m : Machine) (n : Nat) : Except Fault (QuantumState K) :=
  match pow2 n with
  | .error e => .error e
  | .ok N =>
    match vector_fill m N (0 : K) with
    | .error e => .error e
    | .ok amp => .ok { num_qubits := n, amp := amp }

/-- The state a constructor call that returns leaves behind: `n` qubits and `2 ^ n`
zero amplitudes. -/
def QuantumState.zeros [Zero K] (n : Nat) : QuantumState K :=
  { num_qubits := n, amp := List.replicate (2 ^ n) 0 }

/-- `QuantumState::set_zero`: `fill(amp.begin(), amp.end(), 0)`. -/
def set_zero [Zero K] (psi : QuantumState K) : QuantumState K :=
  { psi with amp := psi.amp.map (fun _ => 0) }

/-- `QuantumState::initialize_basis` -/
def initialize_basis [Zero K] [One K] (psi : QuantumState K) (index : Nat) :
    Outcome (QuantumState K) :=
  if index ≥ psi.dim then .thrown .out_of_range psi
  else
    let psi := set_zero psi
    .ok { psi with amp := psi.amp.set index 1 }

/-- Body of the inner loop of `apply_single_qubit_gate`: reads `amp[i0]` and
`amp[i1]`, then writes both. -/
def gate_body [Zero K] [Add K] [Mul K] (U : Matrix (Fin 2) (Fin 2) K) (step i j : Nat)
    (amp : List K) : Outcome (List K) :=
  let i0 := i + j
  let i1 := i + j + step
  if i0 < amp.length ∧ i1 < amp.length then
    let a0 := amp.getD i0 0
    let a1 := amp.getD i1 0
    let amp := amp.set i0 (U 0 0 * a0 + U 0 1 * a1)
    .ok (amp.set i1 (U 1 0 * a0 + U 1 1 * a1))
  else .thrown .out_of_bounds amp

/-- `QuantumState::apply_single_qubit_gate` -/
def apply_single_qubit_gate [Zero K] [Add K] [Mul K] (psi : QuantumState K) (q : Nat)
    (U : Matrix (Fin 2) (Fin 2) K) : Outcome (QuantumState K) :=
  if q ≥ psi.num_qubits then .thrown .out_of_range psi
  else
    let N := psi.dim
    let step := 1 <<< q
    (forLoop N (step <<< 1) (by simp [step, Nat.shiftLeft_eq])
      (fun i => forLoop step 1 Nat.one_pos (fun j => gate_body U step i j) 0) 0 psi.amp).lift
      (fun a => { psi with amp := a })

/-- `QuantumState::apply_pauli_x`, with `X = {{0, 1}, {1, 0}}`. -/
def apply_pauli_x [Zero K] [One K] [Add K] [Mul K] (psi : QuantumState K) (q : Nat) :
    Outcome (QuantumState K) :=
  apply_single_qubit_gate psi q !![0, 1; 1, 0]

/-- Body of the loop of `apply_cnot`: `swap(amp[i], amp[j])` under the mask test. -/
def cnot_body [Zero K] (cmask tmask i : Nat) (amp : List K) : Outcome (List K) :=
  if (i &&& cmask) ≠ 0 ∧ (i &&& tmask) = 0 then
    let j := i ||| tmask
    if i < amp.length ∧ j < amp.length then
      let ai := amp.getD i 0
      let aj := amp.getD j 0
      .ok ((amp.set i aj).set j ai)
    else .thrown .out_of_bounds amp
  else .ok amp

/-- `QuantumState::apply_cnot` -/
def apply_cnot [Zero K] (psi : QuantumState K) (control target : Nat) :
    Outcome (QuantumState K) :=
  if control ≥ psi.num_qubits ∨ target ≥ psi.num_qubits ∨ control = target then
    .thrown .invalid_argument psi
  else
    let N := psi.dim
    let cmask := 1 <<< control
    let tmask := 1 <<< target
    (forLoop N 1 Nat.one_pos (cnot_body cmask tmask) 0 psi.amp).lift
      (fun a => { psi with amp := a })

/-- `QuantumState::apply_diffuser` -/
def apply_diffuser [Field K] (psi : QuantumState K) : QuantumState K :=
  let mean := psi.amp.foldl (fun m a => m + a) 0
  let mean := mean / (psi.dim : K)
  { psi with amp := psi.amp.map (fun a => 2 * mean - a) }

/-- `SingleIndexPhaseOracle::apply`, for the oracle built over `target`. -/
def SingleIndexPhaseOracle.apply [Zero K] [Neg K] (target : Nat) (psi : QuantumState K) :
    Outcome (QuantumState K) :=
  if target ≥ psi.dim then .thrown .out_of_range psi
  else .ok { psi with amp := psi.amp.set target (-psi.amp.getD target 0) }

/-- `MultiIndexPhaseOracle::apply`, for the oracle built over `targets`. -/
def MultiIndexPhaseOracle.apply [Zero K] [Neg K] (targets : List Nat) (psi : QuantumState K) :
    Outcome (QuantumState K) :=
  forEach
    (fun t psi =>
      if t ≥ psi.dim then .thrown .out_of_range psi
      else .ok { psi with amp := psi.amp.set t (-psi.amp.getD t 0) })
    targets psi

/-- Body of the loop of `Grover::run`: `O.apply(psi); psi.apply_diffuser();` with `O`
the multi-target oracle over `marked`. -/
def grover_round [Field K] (marked : List Nat) (psi : QuantumState K) :
    Outcome (QuantumState K) :=
  (MultiIndexPhaseOracle.apply marked psi).andThen (fun psi => .ok (apply_diffuser psi))

/-- The loop of `Grover::run`: `for (i = 0; i < k; ++i) { O.apply(psi); psi.apply_diffuser(); }` -/
def grover_loop [Field K] (marked : List Nat) (k : Nat) (psi : QuantumState K) :
    Outcome (QuantumState K) :=
  forLoop k 1 Nat.one_pos (fun _ psi => grover_round marked psi) 0 psi

/-- Reference for "`j` times the multi-target oracle over `marked` followed by
`apply_diffuser`", written from these two operations by recursion on `j`. -/
def grover_rounds [Field K] (marked : List Nat) : Nat → QuantumState K →
    Outcome (QuantumState K)
  | 0, psi => .ok psi
  | j + 1, psi =>
    ((grover_rounds marked j psi).andThen (MultiIndexPhaseOracle.apply marked)).andThen
      (fun s => .ok (apply_diffuser s))

end Generic

/-! ## Operations that need `real`, `imag`, `sqrt` and `M_PI` -/

/-- `QuantumState::initialize_uniform` -/
noncomputable def initialize_uniform (psi : QuantumState ℂ) : QuantumState ℂ :=
  let psi := set_zero psi
  let inv : ℝ := 1 / Real.sqrt (psi.dim : ℝ)
  { psi with amp := psi.amp.map (fun _ => (⟨inv, 0⟩ : ℂ)) }

/-- `QuantumState::apply_hadamard`, with `s = 1 / sqrt(2)` and `U = {{s, s}, {s, -s}}`. -/
noncomputable def apply_hadamard (psi : QuantumState ℂ) (q : Nat) : Outcome (QuantumState ℂ) :=
  let s : ℝ := 1 / Real.sqrt 2
  apply_single_qubit_gate psi q !![(s : ℂ), (s : ℂ); (s : ℂ), ((-s : ℝ) : ℂ)]

/-- `QuantumState::probability_of_index`: an unchecked read of `amp[idx]`. -/
def probability_of_index (psi : QuantumState ℂ) (idx : Nat) : Except Fault ℝ :=
  if idx < psi.amp.length then
    let re := (psi.amp.getD idx 0).re
    let im := (psi.amp.getD idx 0).im
    .ok (re * re + im * im)
  else .error .out_of_bounds

/-- The loop of `probability_of_any`: `for (auto i : indices) total += probability_of_index(i)`. -/
def probability_sum (psi : QuantumState ℂ) : List Nat → ℝ → Except Fault ℝ
  | [], total => .ok total
  | i :: rest, total =>
    match probability_of_index psi i with
    | .ok p => probability_sum psi rest (total + p)
    | .error e => .error e

/-- `QuantumState::probability_of_any` -/
def probability_of_any (psi : QuantumState ℂ) (indices : List Nat) : Except Fault ℝ :=
  probability_sum psi indices 0

/-! ## Grover driver -/

/-- `struct GroverConfig { size_t num_qubits; std::vector<size_t> marked; }` -/
structure GroverConfig where
  num_qubits : Nat
  marked : List Nat

/-- `struct GroverResult { size_t iterations; double success_probability; }` -/
structure GroverResult where
  iterations : Nat
  success_probability : ℝ

/-- The iteration count of `Grover::run`:
`floor((M_PI / 4.0) * sqrt(double(N) / double(M)))`. -/
noncomputable def Grover.iterations (N M : Nat) : Nat :=
  Nat.floor ((Real.pi / 4) * Real.sqrt ((N : ℝ) / (M : ℝ)))

/-- `Grover::run`: `N = pow2(num_qubits)` and `M = max(1, marked.size())`, then the
state is constructed and made uniform, `k` is computed, the loop runs and the
probability of the marked indices is read. -/
noncomputable def Grover.run (m : Machine) (cfg : GroverConfig) : Except Fault GroverResult :=
  match pow2 cfg.num_qubits with
  | .error e => .error e
  | .ok N =>
    let M := max 1 cfg.marked.length
    match QuantumState.new m cfg.num_qubits with
    | .error e => .error e
    | .ok psi =>
      let psi := initialize_uniform psi
      let k := Grover.iterations N M
      match grover_loop cfg.marked k psi with
      | .thrown e _ => .error e
      | .ok psi =>
        match probability_of_any psi cfg.marked with
        | .error e => .error e
        | .ok p => .ok { iterations := k, success_probability := p }

/-! ## Sequences of unitary operations -/

/-- Sum over all indices of the squared magnitude `re * re + im * im` of the
amplitudes. -/
def total_probability (psi : QuantumState ℂ) : ℝ :=
  (psi.amp.map (fun a => a.re * a.re + a.im * a.im)).sum

/-- The unitary operations a caller can invoke on a state. -/
inductive UnitaryOp where
  | gate (q : Nat) (U : Matrix (Fin 2) (Fin 2) ℂ)
  | cnot (control target : Nat)
  | diffuser
  | single_oracle (target : Nat)
  | multi_oracle (targets : List Nat)

/-- The call an operation stands for. -/
noncomputable def UnitaryOp.apply : UnitaryOp → QuantumState ℂ → Outcome (QuantumState ℂ)
  | .gate q U, psi => apply_single_qubit_gate psi q U
  | .cnot control target, psi => apply_cnot psi control target
  | .diffuser, psi => .ok (apply_diffuser psi)
  | .single_oracle target, psi => SingleIndexPhaseOracle.apply target psi
  | .multi_oracle targets, psi => MultiIndexPhaseOracle.apply targets psi

/-- Arguments in range for `n` qubits, and a unitary matrix for a gate. -/
def UnitaryOp.valid (n : Nat) : UnitaryOp → Prop
  | .gate q U => q < n ∧ U ∈ Matrix.unitaryGroup (Fin 2) ℂ
  | .cnot control target => control < n ∧ target < n ∧ control ≠ target
  | .diffuser => True
  | .single_oracle target => target < 2 ^ n
  | .multi_oracle targets => ∀ t, t ∈ targets → t < 2 ^ n

/-! ## The Hadamard sandwich -/

/-- Reference for `H^⊗n`, in the spec's words: `apply_hadamard(q)` for every `q` in
`0..n-1`, in turn. -/
noncomputable def hadamard_all (psi : QuantumState ℂ) : Outcome (QuantumState ℂ) :=
  forLoop psi.num_qubits 1 Nat.one_pos (fun q s => apply_hadamard s q) 0 psi

/-- Reference for `2|0⟩⟨0| - I`, in the spec's words: negate every amplitude except
the one at index 0. -/
def reflect_about_zero (psi : QuantumState ℂ) : QuantumState ℂ :=
  { psi with amp :=
      match psi.amp with
      | [] => []
      | a :: rest => a :: rest.map (fun x => -x) }

/-- Reference for `H^⊗n (2|0⟩⟨0| - I) H^⊗n`: all Hadamards, the reflection, all
Hadamards again. -/
noncomputable def hadamard_sandwich (psi : QuantumState ℂ) : Outcome (QuantumState ℂ) :=
  (hadamard_all psi).andThen (fun s => hadamard_all (reflect_about_zero s))

/-- One Hadamard with entry `s` read on index functions: the value at `i` combines
`f i` with the value at the index that differs from `i` in bit `q`. -/
def hadamard_fn (s : ℂ) (q : Nat) (f : Nat → ℂ) : Nat → ℂ :=
  fun i => s * (f (i ^^^ 2 ^ q) + (if i.testBit q then -1 else 1) * f i)

/-- The Hadamards on qubits `0..k-1` read on index functions. -/
def hadamard_fn_all (s : ℂ) : Nat → (Nat → ℂ) → (Nat → ℂ)
  | 0, f => f
  | k + 1, f => hadamard_fn s k (hadamard_fn_all s k f)

/-! ## Loop rules and list lemmas -/

theorem forLoop_unfold {σ : Type} (N inc : Nat) (hinc : 0 < inc) (body : Nat → σ → Outcome σ)
    (i : Nat) (s : σ) :
    forLoop N inc hinc body i s =
      if i < N then (body i s).andThen (forLoop N inc hinc body (i + inc)) else .ok s := by
  rw [forLoop]

/-- Invariant rule for `forLoop`: a body that returns normally and carries the
invariant from `i` to `i + inc` makes the loop return normally with the invariant
at the first index that fails the loop test. -/
theorem forLoop_rule {σ : Type} (N inc : Nat) (hinc : 0 < inc) (body : Nat → σ → Outcome σ)
    (Inv : Nat → σ → Prop)
    (hbody : ∀ i s, i < N → Inv i s → ∃ t, body i s = .ok t ∧ Inv (i + inc) t) :
    ∀ (d i : Nat) (s : σ), N - i ≤ d → Inv i s →
      ∃ j r, N ≤ j ∧ forLoop N inc hinc body i s = .ok r ∧ Inv j r := by
  intro d
  induction d with
  | zero =>
    intro i s hd hI
    refine ⟨i, s, by omega, ?_, hI⟩
    rw [forLoop_unfold, if_neg (by omega)]
  | succ d ih =>
    intro i s hd hI
    by_cases hlt : i < N
    · obtain ⟨t, ht, hIt⟩ := hbody i s hlt hI
      obtain ⟨j, r, hj, hr, hIr⟩ := ih (i + inc) t (by omega) hIt
      refine ⟨j, r, hj, ?_, hIr⟩
      rw [forLoop_unfold, if_pos hlt, ht]
      exact hr
    · refine ⟨i, s, by omega, ?_, hI⟩
      rw [forLoop_unfold, if_neg hlt]

theorem getD_set_eq {K : Type} (l : List K) (i j : Nat) (v d : K) (h : i < l.length) :
    (l.set i v).getD j d = if j = i then v else l.getD j d := by
  simp only [List.getD_eq_getElem?_getD, List.getElem?_set]
  by_cases hij : i = j
  · subst hij; simp [h]
  · have hji : ¬ j = i := fun e => hij e.symm
    simp [hij, hji]

/-! ## Bit arithmetic of indices -/

theorem mod_of_block (s i idx : Nat) (hd : s ∣ i) (h1 : i ≤ idx) (h2 : idx < i + s) :
    idx % s = idx - i := by
  obtain ⟨b, rfl⟩ := hd
  have : idx = s * b + (idx - s * b) := by omega
  rw [this, Nat.mul_add_mod, Nat.mod_eq_of_lt (by omega)]
  omega

theorem mod_lt_iff_testBit (q idx : Nat) :
    idx % (2 * 2 ^ q) < 2 ^ q ↔ idx.testBit q = false := by
  have h2 : 2 * 2 ^ q = 2 ^ (q + 1) := by rw [pow_succ]; ring
  rw [h2, Nat.mod_pow_succ, Nat.testBit_to_div_mod]
  have hlt : idx % 2 ^ q < 2 ^ q := Nat.mod_lt _ (Nat.two_pow_pos q)
  rcases Nat.mod_two_eq_zero_or_one (idx / 2 ^ q) with h | h
  · rw [h]; simp; exact hlt
  · rw [h]; simp

theorem partner_lt (q n idx : Nat) (hq : q < n) (hi : idx < 2 ^ n)
    (hb : idx.testBit q = false) : idx + 2 ^ q < 2 ^ n := by
  have hm := (mod_lt_iff_testBit q idx).2 hb
  have hd : 2 * 2 ^ q ∣ 2 ^ n := by
    have : 2 * 2 ^ q = 2 ^ (q + 1) := by rw [pow_succ]; ring
    rw [this]; exact pow_dvd_pow 2 hq
  obtain ⟨m, hm2⟩ := hd
  have hS : 0 < 2 * 2 ^ q := by have := Nat.two_pow_pos q; omega
  have h1 := Nat.div_add_mod idx (2 * 2 ^ q)
  have h2 : idx / (2 * 2 ^ q) < m := by
    rw [Nat.div_lt_iff_lt_mul hS, Nat.mul_comm, ← hm2]; exact hi
  have h3 : 2 * 2 ^ q * (idx / (2 * 2 ^ q) + 1) ≤ 2 * 2 ^ q * m := Nat.mul_le_mul_left _ h2
  rw [Nat.mul_add, Nat.mul_one, ← hm2] at h3
  omega

theorem testBit_xor_pow_self (x t : Nat) : (x ^^^ 2 ^ t).testBit t = !x.testBit t := by
  simp [Nat.testBit_xor, Nat.testBit_two_pow_self]

theorem testBit_xor_pow_ne (x t c : Nat) (h : t ≠ c) :
    (x ^^^ 2 ^ t).testBit c = x.testBit c := by
  simp [Nat.testBit_xor, Nat.testBit_two_pow_of_ne h]

theorem xor_pow_xor_pow (x t : Nat) : (x ^^^ 2 ^ t) ^^^ 2 ^ t = x := by
  rw [Nat.xor_assoc, Nat.xor_self, Nat.xor_zero]

theorem lt_xor_pow (x t : Nat) (h : x.testBit t = false) : x < x ^^^ 2 ^ t := by
  refine Nat.lt_of_testBit t h (by rw [testBit_xor_pow_self, h]; rfl) ?_
  intro j hj
  rw [testBit_xor_pow_ne x t j (by omega)]

theorem xor_pow_lt (x t : Nat) (h : x.testBit t = true) : x ^^^ 2 ^ t < x := by
  refine Nat.lt_of_testBit t (by rw [testBit_xor_pow_self, h]; rfl) h ?_
  intro j hj
  rw [testBit_xor_pow_ne x t j (by omega)]

theorem or_pow_eq_xor (x t : Nat) (h : x.testBit t = false) : x ||| 2 ^ t = x ^^^ 2 ^ t := by
  apply Nat.eq_of_testBit_eq
  intro j
  by_cases hj : t = j
  · subst hj; simp [h]
  · simp [Nat.testBit_two_pow_of_ne hj]

theorem and_pow_ne_zero_iff (x t : Nat) : x &&& 2 ^ t ≠ 0 ↔ x.testBit t = true := by
  constructor
  · intro hne
    by_contra hb
    apply hne
    apply Nat.eq_of_testBit_eq
    intro j
    by_cases hj : t = j
    · subst hj; simp at hb; simp [hb]
    · simp [Nat.testBit_two_pow_of_ne hj]
  · intro hb h0
    have := congrArg (fun y => y.testBit t) h0
    simp [hb] at this

theorem xor_pow_lt_two_pow (x t n : Nat) (hx : x < 2 ^ n) (ht : t < n) :
    x ^^^ 2 ^ t < 2 ^ n :=
  Nat.xor_lt_two_pow hx (Nat.pow_lt_pow_right (by decide) ht)

theorem testBit_add_pow (i q : Nat) : (i + 2 ^ q).testBit q = !i.testBit q := by
  rw [Nat.add_comm, Nat.testBit_two_pow_add_eq]

theorem testBit_sub_pow (i q : Nat) (h : i.testBit q = true) :
    (i - 2 ^ q).testBit q = false := by
  have hge := Nat.testBit_implies_ge h
  have h2 := testBit_add_pow (i - 2 ^ q) q
  rw [Nat.sub_add_cancel hge, h] at h2
  cases hb : (i - 2 ^ q).testBit q with
  | false => rfl
  | true => rw [hb] at h2; exact absurd h2 (by decide)


theorem add_pow_eq_xor (i q : Nat) (hb : i.testBit q = false) : i + 2 ^ q = i ^^^ 2 ^ q := by
  have hm := (mod_lt_iff_testBit q i).2 hb
  have hpow : 2 ^ (q + 1) = 2 * 2 ^ q := by rw [pow_succ]; ring
  rw [← hpow] at hm
  have hdm := Nat.div_add_mod i (2 ^ (q + 1))
  have hc : i % 2 ^ (q + 1) + 2 ^ q < 2 ^ (q + 1) := by omega
  apply Nat.eq_of_testBit_eq
  intro j
  rcases Nat.lt_trichotomy j q with hj | hj | hj
  · rw [testBit_xor_pow_ne i q j (by omega), Nat.add_comm, Nat.testBit_two_pow_add_gt hj]
  · subst hj
    rw [testBit_add_pow, testBit_xor_pow_self]
  · rw [testBit_xor_pow_ne i q j (by omega)]
    have e1 : i + 2 ^ q = 2 ^ (q + 1) * (i / 2 ^ (q + 1)) + (i % 2 ^ (q + 1) + 2 ^ q) := by omega
    have e2 : i = 2 ^ (q + 1) * (i / 2 ^ (q + 1)) + i % 2 ^ (q + 1) := by omega
    rw [e1, Nat.testBit_mul_pow_two_add _ hc]
    conv_rhs => rw [e2, Nat.testBit_mul_pow_two_add _ (Nat.mod_lt _ (Nat.two_pow_pos _))]
    rw [if_neg (by omega), if_neg (by omega)]

theorem sub_pow_eq_xor (i q : Nat) (hb : i.testBit q = true) : i - 2 ^ q = i ^^^ 2 ^ q := by
  have hge := Nat.testBit_implies_ge hb
  have h := add_pow_eq_xor (i - 2 ^ q) q (testBit_sub_pow i q hb)
  rw [Nat.sub_add_cancel hge] at h
  calc i - 2 ^ q = ((i - 2 ^ q) ^^^ 2 ^ q) ^^^ 2 ^ q := (xor_pow_xor_pow _ _).symm
    _ = i ^^^ 2 ^ q := by rw [← h]

/-! ## Single-qubit gate -/

theorem gate_inner_spec {K : Type} [Zero K] [Add K] [Mul K] (U : Matrix (Fin 2) (Fin 2) K)
    (step i : Nat) (amp : List K) (hb : i + 2 * step ≤ amp.length) :
    ∃ r, forLoop step 1 Nat.one_pos (fun j => gate_body U step i j) 0 amp = .ok r ∧
      r.length = amp.length ∧
      ∀ idx, r.getD idx 0 =
        if i ≤ idx ∧ idx < i + step then U 0 0 * amp.getD idx 0 + U 0 1 * amp.getD (idx + step) 0
        else if i + step ≤ idx ∧ idx < i + 2 * step then
          U 1 0 * amp.getD (idx - step) 0 + U 1 1 * amp.getD idx 0
        else amp.getD idx 0 := by
  have key := forLoop_rule step 1 Nat.one_pos (fun j => gate_body U step i j)
    (fun j a => j ≤ step ∧ a.length = amp.length ∧
      ∀ idx, a.getD idx 0 =
        if i ≤ idx ∧ idx < i + j then U 0 0 * amp.getD idx 0 + U 0 1 * amp.getD (idx + step) 0
        else if i + step ≤ idx ∧ idx < i + step + j then
          U 1 0 * amp.getD (idx - step) 0 + U 1 1 * amp.getD idx 0
        else amp.getD idx 0) ?_ step 0 amp (by omega) ⟨by omega, rfl, ?_⟩
  · obtain ⟨j, r, hj, hr, hj2, hlen, hpt⟩ := key
    have hjs : j = step := by omega
    subst hjs
    refine ⟨r, hr, hlen, ?_⟩
    intro idx
    rw [hpt idx]
    have : i + j + j = i + 2 * j := by omega
    rw [this]
  · intro j a hj ⟨_, hlen, hpt⟩
    have h0 : i + j < a.length := by omega
    have h1 : i + j + step < a.length := by omega
    refine ⟨(a.set (i + j) (U 0 0 * a.getD (i + j) 0 + U 0 1 * a.getD (i + j + step) 0)).set
      (i + j + step) (U 1 0 * a.getD (i + j) 0 + U 1 1 * a.getD (i + j + step) 0),
      ?_, by omega, ?_, ?_⟩
    · simp only [gate_body]
      rw [if_pos ⟨h0, h1⟩]
    · simp [hlen]
    · intro idx
      rw [getD_set_eq _ _ _ _ _ (by simpa using h1), getD_set_eq _ _ _ _ _ h0]
      rw [hpt (i + j), hpt (i + j + step), hpt idx]
      split_ifs <;>
        first
          | rfl
          | (exfalso; omega)
          | (subst_vars; simp only [Nat.add_sub_cancel])
  · intro idx
    rw [if_neg (by omega), if_neg (by omega)]

theorem gate_outer_spec {K : Type} [Zero K] [Add K] [Mul K] (U : Matrix (Fin 2) (Fin 2) K)
    (step inc : Nat) (hinc : 0 < inc) (hs : inc = 2 * step) (amp : List K)
    (hN : inc ∣ amp.length) :
    ∃ r, forLoop amp.length inc hinc
        (fun i => forLoop step 1 Nat.one_pos (fun j => gate_body U step i j) 0) 0 amp = .ok r ∧
      r.length = amp.length ∧
      ∀ idx, idx < amp.length → r.getD idx 0 =
        if idx % (2 * step) < step then
          U 0 0 * amp.getD idx 0 + U 0 1 * amp.getD (idx + step) 0
        else U 1 0 * amp.getD (idx - step) 0 + U 1 1 * amp.getD idx 0 := by
  subst hs
  have key := forLoop_rule amp.length (2 * step) hinc
    (fun i => forLoop step 1 Nat.one_pos (fun j => gate_body U step i j) 0)
    (fun i a => (2 * step) ∣ i ∧ i ≤ amp.length ∧ a.length = amp.length ∧
      ∀ idx, a.getD idx 0 =
        if idx < i then
          (if idx % (2 * step) < step then
            U 0 0 * amp.getD idx 0 + U 0 1 * amp.getD (idx + step) 0
          else U 1 0 * amp.getD (idx - step) 0 + U 1 1 * amp.getD idx 0)
        else amp.getD idx 0) ?_ amp.length 0 amp (by omega)
      ⟨Nat.dvd_zero _, Nat.zero_le _, rfl, fun idx => by rw [if_neg (by omega)]⟩
  · obtain ⟨j, r, hj, hr, -, hj2, hlen, hpt⟩ := key
    refine ⟨r, hr, hlen, ?_⟩
    intro idx hidx
    rw [hpt idx, if_pos (by omega)]
  · intro i a hi ⟨hdvd, _, hlen, hpt⟩
    have hle : i + 2 * step ≤ amp.length := by
      have h1 : 2 * step ∣ amp.length - i := Nat.dvd_sub' hN hdvd
      have h2 := Nat.le_of_dvd (by omega) h1
      omega
    obtain ⟨r, hr, hrl, hrp⟩ := gate_inner_spec U step i a (by omega)
    refine ⟨r, hr, Dvd.dvd.add hdvd (Nat.dvd_refl _), hle, by omega, ?_⟩
    intro idx
    rw [hrp idx]
    by_cases c1 : i ≤ idx ∧ idx < i + step
    · have hm := mod_of_block (2 * step) i idx hdvd c1.1 (by omega)
      rw [if_pos c1, if_pos (by omega), if_pos (by omega), hpt idx, hpt (idx + step),
        if_neg (by omega), if_neg (by omega)]
    · rw [if_neg c1]
      by_cases c2 : i + step ≤ idx ∧ idx < i + 2 * step
      · have hm := mod_of_block (2 * step) i idx hdvd (by omega) (by omega)
        rw [if_pos c2, if_pos (by omega), if_neg (by omega), hpt idx, hpt (idx - step),
          if_neg (by omega), if_neg (by omega)]
      · rw [if_neg c2, hpt idx]
        by_cases c3 : idx < i
        · rw [if_pos c3, if_pos (show idx < i + 2 * step by omega)]
        · rw [if_neg c3, if_neg (show ¬ idx < i + 2 * step by omega)]

/-- Pointwise result of `apply_single_qubit_gate` on a state of `2 ^ n` amplitudes. -/
theorem gate_spec {K : Type} [Zero K] [Add K] [Mul K] (n q : Nat)
    (U : Matrix (Fin 2) (Fin 2) K) (psi : QuantumState K)
    (hn : psi.num_qubits = n) (hdim : psi.amp.length = 2 ^ n) (hq : q < n) :
    ∃ r, apply_single_qubit_gate psi q U = .ok r ∧ r.num_qubits = n ∧
      r.amp.length = 2 ^ n ∧
      ∀ i, i < 2 ^ n → r.get i =
        if i.testBit q then U 1 0 * psi.get (i - 2 ^ q) + U 1 1 * psi.get i
        else U 0 0 * psi.get i + U 0 1 * psi.get (i + 2 ^ q) := by
  have hd : (1 <<< q) <<< 1 ∣ psi.amp.length := by
    have : (1 <<< q) <<< 1 = 2 ^ (q + 1) := by
      rw [Nat.shiftLeft_eq, Nat.one_shiftLeft, Nat.pow_one, Nat.pow_succ]
    rw [this, hdim]; exact pow_dvd_pow 2 hq
  obtain ⟨r, hr, hlen, hpt⟩ := gate_outer_spec U (1 <<< q) ((1 <<< q) <<< 1)
    (by simp [Nat.shiftLeft_eq]) (by rw [Nat.shiftLeft_eq, pow_one, Nat.mul_comm]) psi.amp hd
  refine ⟨{ psi with amp := r }, ?_, hn, by rw [← hdim]; exact hlen, ?_⟩
  · simp only [apply_single_qubit_gate, QuantumState.dim]
    rw [if_neg (by omega), hr]
    rfl
  · intro i hi
    have := hpt i (by omega)
    rw [Nat.one_shiftLeft] at this
    simp only [QuantumState.get]
    rw [this]
    by_cases hb : i.testBit q = true
    · rw [if_pos hb, if_neg]
      rw [mod_lt_iff_testBit]; simp [hb]
    · have hb2 : i.testBit q = false := by simpa using hb
      rw [if_neg hb, if_pos ((mod_lt_iff_testBit q i).2 hb2)]

/-- C1: on a state of `2 ^ n` amplitudes and for `q < n`, `apply_single_qubit_gate`
returns normally, keeps the size, and the new amplitude at every index `i` is
`U[0][0]*amp[i] + U[0][1]*amp[i + 2^q]` when bit `q` of `i` is clear and
`U[1][0]*amp[i - 2^q] + U[1][1]*amp[i]` when it is set; in both cases the partner
index lies inside the vector and is `i` with bit `q` flipped. -/
theorem C1_single_qubit_gate_pairing (n q : Nat) (U : Matrix (Fin 2) (Fin 2) ℂ)
    (psi : QuantumState ℂ) (hn : psi.num_qubits = n) (hdim : psi.amp.length = 2 ^ n)
    (hq : q < n) :
    ∃ r, apply_single_qubit_gate psi q U = .ok r ∧ r.num_qubits = n ∧
      r.amp.length = 2 ^ n ∧
      ∀ i, i < 2 ^ n →
        (i.testBit q = false →
          i + 2 ^ q < 2 ^ n ∧ i + 2 ^ q = i ^^^ 2 ^ q ∧
            r.get i = U 0 0 * psi.get i + U 0 1 * psi.get (i + 2 ^ q)) ∧
        (i.testBit q = true →
          2 ^ q ≤ i ∧ i - 2 ^ q = i ^^^ 2 ^ q ∧
            r.get i = U 1 0 * psi.get (i - 2 ^ q) + U 1 1 * psi.get i) := by
  obtain ⟨r, hr, hrn, hrl, hpt⟩ := gate_spec n q U psi hn hdim hq
  refine ⟨r, hr, hrn, hrl, ?_⟩
  intro i hi
  refine ⟨fun hb => ⟨partner_lt q n i hq hi hb, add_pow_eq_xor i q hb, ?_⟩,
    fun hb => ⟨Nat.testBit_implies_ge hb, sub_pow_eq_xor i q hb, ?_⟩⟩
  · rw [hpt i hi, if_neg (by simp [hb])]
  · rw [hpt i hi, if_pos hb]

theorem C1_single_qubit_gate_pairing_witness :
    ∃ r, apply_single_qubit_gate (⟨1, [1, 0]⟩ : QuantumState ℂ) 0 !![0, 1; 1, 0] = .ok r ∧
      r.num_qubits = 1 ∧ r.amp.length = 2 ^ 1 ∧
      ∀ i, i < 2 ^ 1 →
        (i.testBit 0 = false →
          i + 2 ^ 0 < 2 ^ 1 ∧ i + 2 ^ 0 = i ^^^ 2 ^ 0 ∧
            r.get i = (!![0, 1; 1, 0] : Matrix (Fin 2) (Fin 2) ℂ) 0 0 *
                (⟨1, [1, 0]⟩ : QuantumState ℂ).get i +
              (!![0, 1; 1, 0] : Matrix (Fin 2) (Fin 2) ℂ) 0 1 *
                (⟨1, [1, 0]⟩ : QuantumState ℂ).get (i + 2 ^ 0)) ∧
        (i.testBit 0 = true →
          2 ^ 0 ≤ i ∧ i - 2 ^ 0 = i ^^^ 2 ^ 0 ∧
            r.get i = (!![0, 1; 1, 0] : Matrix (Fin 2) (Fin 2) ℂ) 1 0 *
                (⟨1, [1, 0]⟩ : QuantumState ℂ).get (i - 2 ^ 0) +
              (!![0, 1; 1, 0] : Matrix (Fin 2) (Fin 2) ℂ) 1 1 *
                (⟨1, [1, 0]⟩ : QuantumState ℂ).get i) :=
  C1_single_qubit_gate_pairing 1 0 !![0, 1; 1, 0] ⟨1, [1, 0]⟩ rfl rfl (by decide)

/-! ## Controlled-NOT -/

theorem cnot_loop_spec {K : Type} [Zero K] (n c t : Nat) (amp : List K)
    (hlen : amp.length = 2 ^ n) (ht : t < n) (hct : c ≠ t) :
    ∃ r, forLoop amp.length 1 Nat.one_pos (cnot_body (1 <<< c) (1 <<< t)) 0 amp = .ok r ∧
      r.length = amp.length ∧
      ∀ idx, idx < 2 ^ n → r.getD idx 0 =
        if idx.testBit c then amp.getD (idx ^^^ 2 ^ t) 0 else amp.getD idx 0 := by
  have key := forLoop_rule amp.length 1 Nat.one_pos (cnot_body (1 <<< c) (1 <<< t))
    (fun i a => i ≤ amp.length ∧ a.length = amp.length ∧
      ∀ idx, idx < 2 ^ n → a.getD idx 0 =
        if idx.testBit c = true ∧ (idx < i ∨ idx ^^^ 2 ^ t < i) then amp.getD (idx ^^^ 2 ^ t) 0
        else amp.getD idx 0) ?_ amp.length 0 amp (by omega)
      ⟨Nat.zero_le _, rfl, fun idx _ => by rw [if_neg (by omega)]⟩
  · obtain ⟨j, r, hj, hr, hj2, hrl, hpt⟩ := key
    refine ⟨r, hr, hrl, ?_⟩
    intro idx hidx
    rw [hpt idx hidx]
    by_cases hb : idx.testBit c = true
    · rw [if_pos ⟨hb, Or.inl (by omega)⟩, if_pos hb]
    · rw [if_neg (fun h => hb h.1), if_neg hb]
  · intro i a hi ⟨_, hal, hpt⟩
    have hi2 : i < 2 ^ n := by omega
    simp only [cnot_body, Nat.one_shiftLeft]
    by_cases hcond : i &&& 2 ^ c ≠ 0 ∧ i &&& 2 ^ t = 0
    · have hbc : i.testBit c = true := (and_pow_ne_zero_iff i c).1 hcond.1
      have hbt : i.testBit t = false := by
        by_contra h
        exact (and_pow_ne_zero_iff i t).2 (by simpa using h) hcond.2
      have hor := or_pow_eq_xor i t hbt
      have hjlt : i ^^^ 2 ^ t < 2 ^ n := xor_pow_lt_two_pow i t n hi2 ht
      have hgt := lt_xor_pow i t hbt
      rw [if_pos hcond, hor, if_pos ⟨by omega, by omega⟩]
      refine ⟨_, rfl, by omega, by simp [hal], ?_⟩
      intro idx hidx
      rw [getD_set_eq _ _ _ _ _ (by simp; omega), getD_set_eq _ _ _ _ _ (by omega),
        hpt i hi2, hpt (i ^^^ 2 ^ t) hjlt, hpt idx hidx, xor_pow_xor_pow]
      by_cases e1 : idx = i ^^^ 2 ^ t
      · subst e1
        rw [if_pos rfl, xor_pow_xor_pow, if_neg (by omega),
          if_pos ⟨by rw [testBit_xor_pow_ne i t c (Ne.symm hct)]; exact hbc, Or.inr (by omega)⟩]
      · rw [if_neg e1]
        by_cases e0 : idx = i
        · subst e0
          rw [if_pos rfl, if_neg (by omega), if_pos ⟨hbc, Or.inl (by omega)⟩]
        · rw [if_neg e0]
          have e2 : idx ^^^ 2 ^ t ≠ i := by
            intro h; apply e1; rw [← h, xor_pow_xor_pow]
          by_cases hp : idx.testBit c = true ∧ (idx < i ∨ idx ^^^ 2 ^ t < i)
          · rw [if_pos hp, if_pos ⟨hp.1, by omega⟩]
          · rw [if_neg hp, if_neg (fun h => hp ⟨h.1, by omega⟩)]
    · rw [if_neg hcond]
      refine ⟨a, rfl, by omega, hal, ?_⟩
      intro idx hidx
      rw [hpt idx hidx]
      have hstep : ∀ x, (x ^^^ 2 ^ t = i ∨ x = i) → x.testBit c = true →
          (x < i ∨ x ^^^ 2 ^ t < i) := by
        intro x hx hxc
        rcases hx with hx | hx
        · have hic : i.testBit c = true := by
            rw [← hx, testBit_xor_pow_ne x t c (Ne.symm hct)]; exact hxc
          have hit : i.testBit t = true := by
            by_contra h
            apply hcond
            refine ⟨(and_pow_ne_zero_iff i c).2 hic, ?_⟩
            by_contra h0
            exact h ((and_pow_ne_zero_iff i t).1 h0)
          have hxt : x.testBit t = false := by
            have := testBit_xor_pow_self x t
            rw [hx, hit] at this
            simpa using this.symm
          have := lt_xor_pow x t hxt
          left; omega
        · subst hx
          have hit : x.testBit t = true := by
            by_contra h
            apply hcond
            refine ⟨(and_pow_ne_zero_iff x c).2 hxc, ?_⟩
            by_contra h0
            exact h ((and_pow_ne_zero_iff x t).1 h0)
          right; exact xor_pow_lt x t hit
      by_cases hp : idx.testBit c = true ∧ (idx < i ∨ idx ^^^ 2 ^ t < i)
      · rw [if_pos hp, if_pos ⟨hp.1, by omega⟩]
      · rw [if_neg hp, if_neg]
        intro h
        apply hp
        refine ⟨h.1, ?_⟩
        by_cases hx : idx ^^^ 2 ^ t = i ∨ idx = i
        · exact hstep idx hx h.1
        · omega

theorem list_ext_getD {K : Type} (d : K) (l1 l2 : List K) (hlen : l1.length = l2.length)
    (h : ∀ i, i < l1.length → l1.getD i d = l2.getD i d) : l1 = l2 := by
  apply List.ext_getElem hlen
  intro i h1 h2
  have := h i h1
  simpa [List.getD_eq_getElem?_getD, List.getElem?_eq_getElem h1, List.getElem?_eq_getElem h2]
    using this

/-- Pointwise result of `apply_cnot` on a state of `2 ^ n` amplitudes. -/
theorem cnot_spec {K : Type} [Zero K] (n control target : Nat) (psi : QuantumState K)
    (hn : psi.num_qubits = n) (hdim : psi.amp.length = 2 ^ n)
    (hc : control < n) (ht : target < n) (hne : control ≠ target) :
    ∃ r, apply_cnot psi control target = .ok r ∧ r.num_qubits = n ∧
      r.amp.length = 2 ^ n ∧
      ∀ i, i < 2 ^ n → r.get i =
        if i.testBit control then psi.get (i ^^^ 2 ^ target) else psi.get i := by
  obtain ⟨r, hr, hrl, hpt⟩ := cnot_loop_spec n control target psi.amp hdim ht hne
  refine ⟨{ psi with amp := r }, ?_, hn, by rw [← hdim]; exact hrl, hpt⟩
  simp only [apply_cnot, QuantumState.dim]
  rw [if_neg (by omega), hr]
  rfl

/-- C10: for `control ≠ target`, both below `n`, `apply_cnot` on a state of `2 ^ n`
amplitudes returns normally; the new amplitude at `i` is the old one at
`i XOR 2^target` when bit `control` of `i` is set and the old one at `i` otherwise.
In particular every pair `(i, i | 2^target)` with bit `control` set and bit `target`
clear has been exchanged. -/
theorem C10_cnot_pointwise (n control target : Nat) (psi : QuantumState ℂ)
    (hn : psi.num_qubits = n) (hdim : psi.amp.length = 2 ^ n)
    (hc : control < n) (ht : target < n) (hne : control ≠ target) :
    ∃ r, apply_cnot psi control target = .ok r ∧ r.num_qubits = n ∧
      r.amp.length = 2 ^ n ∧
      (∀ i, i < 2 ^ n → r.get i =
        if i.testBit control then psi.get (i ^^^ 2 ^ target) else psi.get i) ∧
      (∀ i, i < 2 ^ n → i.testBit control = true → i.testBit target = false →
        i ||| 2 ^ target < 2 ^ n ∧ r.get i = psi.get (i ||| 2 ^ target) ∧
          r.get (i ||| 2 ^ target) = psi.get i) := by
  obtain ⟨r, hr, hrn, hrl, hpt⟩ := cnot_spec n control target psi hn hdim hc ht hne
  refine ⟨r, hr, hrn, hrl, hpt, ?_⟩
  intro i hi hbc hbt
  have hor := or_pow_eq_xor i target hbt
  have hlt := xor_pow_lt_two_pow i target n hi ht
  rw [hor]
  refine ⟨hlt, ?_, ?_⟩
  · rw [hpt i hi, if_pos hbc]
  · rw [hpt _ hlt, testBit_xor_pow_ne i target control (Ne.symm hne), if_pos hbc,
      xor_pow_xor_pow]

theorem C10_cnot_pointwise_witness :
    ∃ r, apply_cnot (⟨2, [1, 2, 3, 4]⟩ : QuantumState ℂ) 0 1 = .ok r ∧ r.num_qubits = 2 ∧
      r.amp.length = 2 ^ 2 ∧
      (∀ i, i < 2 ^ 2 → r.get i =
        if i.testBit 0 then (⟨2, [1, 2, 3, 4]⟩ : QuantumState ℂ).get (i ^^^ 2 ^ 1)
        else (⟨2, [1, 2, 3, 4]⟩ : QuantumState ℂ).get i) ∧
      (∀ i, i < 2 ^ 2 → i.testBit 0 = true → i.testBit 1 = false →
        i ||| 2 ^ 1 < 2 ^ 2 ∧
          r.get i = (⟨2, [1, 2, 3, 4]⟩ : QuantumState ℂ).get (i ||| 2 ^ 1) ∧
          r.get (i ||| 2 ^ 1) = (⟨2, [1, 2, 3, 4]⟩ : QuantumState ℂ).get i) :=
  C10_cnot_pointwise 2 0 1 ⟨2, [1, 2, 3, 4]⟩ rfl rfl (by decide) (by decide) (by decide)

/-- C9: for `control ≠ target`, both below `n`, two successive calls
`apply_cnot(control, target)` on a state of `2 ^ n` amplitudes both return normally
and leave the state exactly as it was. -/
theorem C9_cnot_involutory (n control target : Nat) (psi : QuantumState ℂ)
    (hn : psi.num_qubits = n) (hdim : psi.amp.length = 2 ^ n)
    (hc : control < n) (ht : target < n) (hne : control ≠ target) :
    (apply_cnot psi control target).andThen (fun s => apply_cnot s control target) =
      .ok psi := by
  obtain ⟨r, hr, hrn, hrl, hpt⟩ := cnot_spec n control target psi hn hdim hc ht hne
  obtain ⟨r2, hr2, hrn2, hrl2, hpt2⟩ := cnot_spec n control target r hrn hrl hc ht hne
  rw [hr]
  simp only [Outcome.andThen]
  rw [hr2]
  congr 1
  obtain ⟨n2, a2⟩ := r2
  obtain ⟨n0, a0⟩ := psi
  simp only at hrn2 hn hrl2 hdim
  have hamp : a2 = a0 := by
    apply list_ext_getD 0 a2 a0 (by rw [hrl2, hdim])
    intro i hi
    have hi2 : i < 2 ^ n := by rw [← hrl2]; exact hi
    have h2 := hpt2 i hi2
    simp only [QuantumState.get] at h2 hpt
    rw [h2]
    by_cases hb : i.testBit control = true
    · have hlt := xor_pow_lt_two_pow i target n hi2 ht
      have h1 := hpt _ hlt
      simp only [QuantumState.get] at h1
      rw [if_pos hb, h1, testBit_xor_pow_ne i target control (Ne.symm hne), if_pos hb,
        xor_pow_xor_pow]
    · have h1 := hpt _ hi2
      simp only [QuantumState.get] at h1
      rw [if_neg hb, h1, if_neg hb]
  rw [hamp, hrn2, hn]

theorem C9_cnot_involutory_witness :
    (apply_cnot (⟨2, [1, 2, 3, 4]⟩ : QuantumState ℂ) 0 1).andThen
      (fun s => apply_cnot s 0 1) = .ok ⟨2, [1, 2, 3, 4]⟩ :=
  C9_cnot_involutory 2 0 1 ⟨2, [1, 2, 3, 4]⟩ rfl rfl (by decide) (by decide) (by decide)

/-! ## Diffuser -/

theorem foldl_add_eq_sum {K : Type} [Field K] (l : List K) (c : K) :
    l.foldl (fun m a => m + a) c = c + l.sum := by
  induction l generalizing c with
  | nil => simp
  | cons x xs ih => simp [ih, add_assoc]

theorem sum_map_const_sub {K : Type} [Field K] (l : List K) (c : K) :
    (l.map (fun a => c - a)).sum = (l.length : K) * c - l.sum := by
  induction l with
  | nil => simp
  | cons x xs ih => simp [ih]; ring

/-- The mean computed by `apply_diffuser`. -/
theorem diffuser_amp {K : Type} [Field K] (psi : QuantumState K) :
    (apply_diffuser psi).amp =
      psi.amp.map (fun a => 2 * (psi.amp.sum / (psi.amp.length : K)) - a) := by
  simp [apply_diffuser, foldl_add_eq_sum, QuantumState.dim]

theorem diffuser_twice {K : Type} [Field K] (psi : QuantumState K)
    (hN : (psi.amp.length : K) ≠ 0) : apply_diffuser (apply_diffuser psi) = psi := by
  have h1 := diffuser_amp psi
  have h2 := diffuser_amp (apply_diffuser psi)
  have hn : (apply_diffuser (apply_diffuser psi)).num_qubits = psi.num_qubits := rfl
  have hamp : (apply_diffuser (apply_diffuser psi)).amp = psi.amp := by
    rw [h2, h1, List.length_map, sum_map_const_sub, List.map_map]
    have hmean : ((psi.amp.length : K) * (2 * (psi.amp.sum / (psi.amp.length : K))) -
        psi.amp.sum) / (psi.amp.length : K) = psi.amp.sum / (psi.amp.length : K) := by
      field_simp; ring
    rw [hmean]
    conv_rhs => rw [← List.map_id psi.amp]
    apply List.map_congr_left
    intro a _
    simp
  cases hpp : apply_diffuser (apply_diffuser psi) with
  | mk n2 a2 =>
    rw [hpp] at hn hamp
    cases psi
    simp only at hn hamp
    rw [hn, hamp]

/-- C7: on every array of `2 ^ n` complex amplitudes, `apply_diffuser` applied twice
gives back the array it started from. -/
theorem C7_diffuser_involutory (n : Nat) (psi : QuantumState ℂ)
    (hdim : psi.amp.length = 2 ^ n) : apply_diffuser (apply_diffuser psi) = psi := by
  apply diffuser_twice
  rw [hdim]
  norm_num

theorem C7_diffuser_involutory_witness :
    apply_diffuser (apply_diffuser (⟨1, [3, Complex.I]⟩ : QuantumState ℂ)) =
      ⟨1, [3, Complex.I]⟩ :=
  C7_diffuser_involutory 1 ⟨1, [3, Complex.I]⟩ rfl

/-! ## Involutory gates -/

/-- A gate whose matrix squares to the identity undoes itself. -/
theorem gate_twice {K : Type} [CommRing K] (n q : Nat) (U : Matrix (Fin 2) (Fin 2) K)
    (psi : QuantumState K) (hn : psi.num_qubits = n) (hdim : psi.amp.length = 2 ^ n)
    (hq : q < n)
    (h00 : U 0 0 * U 0 0 + U 0 1 * U 1 0 = 1) (h01 : U 0 0 * U 0 1 + U 0 1 * U 1 1 = 0)
    (h10 : U 1 0 * U 0 0 + U 1 1 * U 1 0 = 0) (h11 : U 1 0 * U 0 1 + U 1 1 * U 1 1 = 1) :
    (apply_single_qubit_gate psi q U).andThen (fun s => apply_single_qubit_gate s q U) =
      .ok psi := by
  obtain ⟨r, hr, hrn, hrl, hpt⟩ := gate_spec n q U psi hn hdim hq
  obtain ⟨r2, hr2, hrn2, hrl2, hpt2⟩ := gate_spec n q U r hrn hrl hq
  rw [hr]
  simp only [Outcome.andThen]
  rw [hr2]
  congr 1
  obtain ⟨n2, a2⟩ := r2
  obtain ⟨n0, a0⟩ := psi
  simp only at hrn2 hn hrl2 hdim
  have hamp : a2 = a0 := by
    apply list_ext_getD 0 a2 a0 (by rw [hrl2, hdim])
    intro i hi
    have hi2 : i < 2 ^ n := by rw [← hrl2]; exact hi
    have h2 := hpt2 i hi2
    simp only [QuantumState.get] at h2 hpt
    rw [h2]
    by_cases hb : i.testBit q = true
    · have hge := Nat.testBit_implies_ge hb
      have hb2 := testBit_sub_pow i q hb
      have e : i - 2 ^ q + 2 ^ q = i := Nat.sub_add_cancel hge
      rw [if_pos hb, hpt _ (Nat.lt_of_le_of_lt (Nat.sub_le _ _) hi2), hpt i hi2, if_pos hb,
        if_neg (by simp [hb2]), e]
      linear_combination a0.getD (i - 2 ^ q) 0 * h10 + a0.getD i 0 * h11
    · have hb1 : i.testBit q = false := by simpa using hb
      have hlt := partner_lt q n i hq hi2 hb1
      have hb2 : (i + 2 ^ q).testBit q = true := by rw [testBit_add_pow, hb1]; rfl
      rw [if_neg hb, hpt _ hlt, hpt i hi2, if_neg hb, if_pos hb2, Nat.add_sub_cancel]
      linear_combination a0.getD i 0 * h00 + a0.getD (i + 2 ^ q) 0 * h01
  rw [hamp, hrn2, hn]

/-- C8: on a state of `2 ^ n` amplitudes and for `q < n`, two calls of
`apply_hadamard(q)` return normally and restore the state, and so do two calls of
`apply_pauli_x(q)`. -/
theorem C8_hadamard_pauli_x_involutory (n q : Nat) (psi : QuantumState ℂ)
    (hn : psi.num_qubits = n) (hdim : psi.amp.length = 2 ^ n) (hq : q < n) :
    (apply_hadamard psi q).andThen (fun s => apply_hadamard s q) = .ok psi ∧
    (apply_pauli_x psi q).andThen (fun s => apply_pauli_x s q) = .ok psi := by
  have hs : (1 / Real.sqrt 2) * (1 / Real.sqrt 2) = (1 / 2 : ℝ) := by
    rw [div_mul_div_comm, Real.mul_self_sqrt (by norm_num)]; norm_num
  have hsC : ((1 / Real.sqrt 2 : ℝ) : ℂ) * ((1 / Real.sqrt 2 : ℝ) : ℂ) = 1 / 2 := by
    rw [← Complex.ofReal_mul, hs]; push_cast; rfl
  constructor
  · apply gate_twice n q _ psi hn hdim hq
    · simp only [Matrix.of_apply, Matrix.cons_val_zero, Matrix.cons_val_one, Matrix.head_cons]
      rw [hsC]; norm_num
    · simp only [Matrix.of_apply, Matrix.cons_val_zero, Matrix.cons_val_one, Matrix.head_cons]
      push_cast; ring
    · simp only [Matrix.of_apply, Matrix.cons_val_zero, Matrix.cons_val_one, Matrix.head_cons]
      push_cast; ring
    · simp only [Matrix.of_apply, Matrix.cons_val_zero, Matrix.cons_val_one, Matrix.head_cons]
      have : ((-(1 / Real.sqrt 2) : ℝ) : ℂ) = -((1 / Real.sqrt 2 : ℝ) : ℂ) := by push_cast; ring
      rw [this, neg_mul_neg, hsC]; norm_num
  · apply gate_twice n q _ psi hn hdim hq <;> simp

theorem C8_hadamard_pauli_x_involutory_witness :
    (apply_hadamard (⟨1, [1, 0]⟩ : QuantumState ℂ) 0).andThen (fun s => apply_hadamard s 0) =
      .ok ⟨1, [1, 0]⟩ ∧
    (apply_pauli_x (⟨1, [1, 0]⟩ : QuantumState ℂ) 0).andThen (fun s => apply_pauli_x s 0) =
      .ok ⟨1, [1, 0]⟩ :=
  C8_hadamard_pauli_x_involutory 1 0 ⟨1, [1, 0]⟩ rfl rfl (by decide)

/-! ## Oracle, probabilities and the Grover loop -/

theorem andThen_assoc {σ : Type} (o : Outcome σ) (f g : σ → Outcome σ) :
    (o.andThen f).andThen g = o.andThen (fun s => (f s).andThen g) := by
  cases o <;> rfl

/-- Invariant rule for `forEach`. -/
theorem forEach_rule {α σ : Type} (body : α → σ → Outcome σ) (Inv : σ → Prop) (xs : List α)
    (hbody : ∀ x, x ∈ xs → ∀ s, Inv s → ∃ t, body x s = .ok t ∧ Inv t) :
    ∀ s, Inv s → ∃ r, forEach body xs s = .ok r ∧ Inv r := by
  induction xs with
  | nil => intro s hs; exact ⟨s, rfl, hs⟩
  | cons x xs ih =>
    intro s hs
    obtain ⟨t, ht, hIt⟩ := hbody x (List.mem_cons_self x xs) s hs
    obtain ⟨r, hr, hIr⟩ := ih (fun y hy => hbody y (List.mem_cons_of_mem x hy)) t hIt
    refine ⟨r, ?_, hIr⟩
    simp only [forEach, ht, Outcome.andThen]
    exact hr

/-- With every target inside the vector the multi-target oracle returns normally
and keeps the shape of the state. -/
theorem oracle_ok {K : Type} [Zero K] [Neg K] (targets : List Nat) (psi : QuantumState K)
    (hin : ∀ t, t ∈ targets → t < psi.amp.length) :
    ∃ r, MultiIndexPhaseOracle.apply targets psi = .ok r ∧
      r.num_qubits = psi.num_qubits ∧ r.amp.length = psi.amp.length := by
  apply forEach_rule _
    (fun s => s.num_qubits = psi.num_qubits ∧ s.amp.length = psi.amp.length) targets ?_ psi
    ⟨rfl, rfl⟩
  intro t ht s ⟨hs1, hs2⟩
  refine ⟨{ s with amp := s.amp.set t (-s.amp.getD t 0) }, ?_, hs1, by simp [hs2]⟩
  have := hin t ht
  rw [if_neg (by simp only [QuantumState.dim]; omega)]

/-- With pairwise distinct targets inside the vector the multi-target oracle negates
exactly the amplitudes at the targets. -/
theorem oracle_spec {K : Type} [Zero K] [Neg K] (targets : List Nat) (hnd : targets.Nodup)
    (psi : QuantumState K) (hin : ∀ t, t ∈ targets → t < psi.amp.length) :
    ∃ r, MultiIndexPhaseOracle.apply targets psi = .ok r ∧
      r.num_qubits = psi.num_qubits ∧ r.amp.length = psi.amp.length ∧
      ∀ i, r.get i = if i ∈ targets then -psi.get i else psi.get i := by
  induction targets generalizing psi with
  | nil => exact ⟨psi, rfl, rfl, rfl, fun i => by simp⟩
  | cons t ts ih =>
    have ht : t < psi.amp.length := hin t (List.mem_cons_self t ts)
    have hnd2 := List.nodup_cons.1 hnd
    obtain ⟨r, hr, hrn, hrl, hpt⟩ := ih hnd2.2
      { psi with amp := psi.amp.set t (-psi.amp.getD t 0) }
      (fun x hx => by simpa using hin x (List.mem_cons_of_mem t hx))
    refine ⟨r, ?_, hrn, by simpa using hrl, ?_⟩
    · simp only [MultiIndexPhaseOracle.apply, forEach]
      rw [if_neg (by simp only [QuantumState.dim]; omega)]
      exact hr
    · intro i
      rw [hpt i]
      simp only [QuantumState.get, List.mem_cons]
      rw [getD_set_eq _ _ _ _ _ ht]
      by_cases hit : i = t
      · subst hit
        simp [hnd2.1]
      · simp [hit]

/-- One more round of the reference is one more run of the loop body. -/
theorem rounds_succ {K : Type} [Field K] (marked : List Nat) (j : Nat)
    (psi : QuantumState K) :
    grover_rounds marked (j + 1) psi =
      (grover_rounds marked j psi).andThen (grover_round marked) := by
  rw [grover_rounds, andThen_assoc]
  rfl

theorem rounds_succ_front {K : Type} [Field K] (marked : List Nat) (j : Nat)
    (psi : QuantumState K) :
    grover_rounds marked (j + 1) psi =
      (grover_round marked psi).andThen (grover_rounds marked j) := by
  induction j with
  | zero =>
    rw [rounds_succ]
    simp only [grover_rounds, Outcome.andThen]
    cases grover_round marked psi <;> rfl
  | succ j ih =>
    rw [rounds_succ, ih, andThen_assoc]
    congr 1
    funext s
    exact (rounds_succ marked j s).symm

/-- The loop of `Grover::run` is the `k`-fold composition of the round. -/
theorem grover_loop_eq_rounds {K : Type} [Field K] (marked : List Nat) (k : Nat)
    (psi : QuantumState K) : grover_loop marked k psi = grover_rounds marked k psi := by
  have key : ∀ d i (s : QuantumState K), i + d = k →
      forLoop k 1 Nat.one_pos (fun _ psi => grover_round marked psi) i s =
        grover_rounds marked d s := by
    intro d
    induction d with
    | zero =>
      intro i s h
      rw [forLoop_unfold, if_neg (by omega)]
      rfl
    | succ d ih =>
      intro i s h
      rw [forLoop_unfold, if_pos (by omega), rounds_succ_front]
      congr 1
      funext t
      exact ih (i + 1) t (by omega)
  exact key k 0 psi (by omega)

theorem probability_sum_ok (psi : QuantumState ℂ) (indices : List Nat)
    (hin : ∀ t, t ∈ indices → t < psi.amp.length) (total : ℝ) :
    probability_sum psi indices total =
      .ok (total + (indices.map (fun i => Complex.normSq (psi.get i))).sum) := by
  induction indices generalizing total with
  | nil => simp [probability_sum]
  | cons t ts ih =>
    have ht := hin t (List.mem_cons_self t ts)
    simp only [probability_sum, probability_of_index, if_pos ht]
    rw [ih (fun x hx => hin x (List.mem_cons_of_mem t hx))]
    simp [QuantumState.get, Complex.normSq_apply, add_assoc]

theorem probability_of_any_ok (psi : QuantumState ℂ) (indices : List Nat)
    (hin : ∀ t, t ∈ indices → t < psi.amp.length) :
    probability_of_any psi indices =
      .ok ((indices.map (fun i => Complex.normSq (psi.get i))).sum) := by
  rw [probability_of_any, probability_sum_ok psi indices hin, zero_add]

theorem pow2_ok (n : Nat) (h : n < 64) : pow2 n = .ok (2 ^ n) := by
  rw [pow2, if_pos h, Nat.one_shiftLeft]

/-- A machine that holds `n` qubits has `n < 60`. -/
theorem holds_lt (m : Machine) (n : Nat) (h : m.holds n) : n < 60 := by
  by_contra hn
  have h1 : 2 ^ 60 ≤ 2 ^ n := Nat.pow_le_pow_right (by decide) (by omega)
  have h2 := m.max_size_lt
  have h3 := h.1
  omega

/-- On a machine that holds `n` qubits the constructor returns `2 ^ n` zeros. -/
theorem new_ok {K : Type} [Zero K] (m : Machine) (n : Nat) (h : m.holds n) :
    (QuantumState.new m n : Except Fault (QuantumState K)) = .ok (QuantumState.zeros n) := by
  have hn := holds_lt m n h
  simp only [QuantumState.new, pow2_ok n (by omega), vector_fill]
  rw [if_neg (by have := h.1; omega), if_neg (by have := h.2; omega)]
  rfl

/-- Beyond `max_size` the constructor throws `std::length_error`; 63 qubits are
beyond it on every machine. -/
theorem new_length_error {K : Type} [Zero K] (m : Machine) :
    (QuantumState.new m 63 : Except Fault (QuantumState K)) = .error .length_error := by
  simp only [QuantumState.new, pow2_ok 63 (by decide), vector_fill]
  rw [if_pos (by have := m.max_size_lt; omega)]

theorem uniform_state (n : Nat) :
    initialize_uniform (QuantumState.zeros n) =
      { num_qubits := n,
        amp := List.replicate (2 ^ n) (((1 / Real.sqrt ((2 : ℝ) ^ n) : ℝ)) : ℂ) } := by
  simp only [initialize_uniform, QuantumState.zeros, set_zero, QuantumState.dim,
    List.map_replicate, List.length_replicate]
  congr 2
  apply Complex.ext <;>
    simp only [Complex.ofReal_re, Complex.ofReal_im, Nat.cast_pow, Nat.cast_ofNat]

/-! ## The closed-form schedule -/

/-- The angle of the Grover schedule: `sin θ = √M / √N` and `cos θ = √(N - M) / √N`. -/
theorem grover_angle (M N : ℝ) (hM : 0 < M) (hMN : M ≤ N) :
    Real.sin (Real.arcsin (Real.sqrt (M / N))) = Real.sqrt M / Real.sqrt N ∧
    Real.cos (Real.arcsin (Real.sqrt (M / N))) = Real.sqrt (N - M) / Real.sqrt N := by
  have hN : 0 < N := lt_of_lt_of_le hM hMN
  have h1 : M / N ≤ 1 := (div_le_one hN).2 hMN
  have h0 : 0 ≤ M / N := div_nonneg hM.le hN.le
  constructor
  · rw [Real.sin_arcsin (by linarith [Real.sqrt_nonneg (M / N)])
      (Real.sqrt_le_one.2 h1),
      Real.sqrt_div hM.le]
  · rw [Real.cos_arcsin, Real.sq_sqrt h0, ← Real.sqrt_div (by linarith)]
    congr 1
    field_simp

theorem grover_step_alg (a b c s t : ℝ) (ha : 0 < a) (hc : 0 < c)
    (hb2 : b * b = c * c - a * a) :
    2 * ((-(a * s) + b * t) / (c * c)) - (-(s / a)) =
      (s * (2 * (b / c) ^ 2 - 1) + t * (2 * (a / c) * (b / c))) / a ∧
    (0 < b →
      2 * ((-(a * s) + b * t) / (c * c)) - t / b =
        (t * (2 * (b / c) ^ 2 - 1) - s * (2 * (a / c) * (b / c))) / b) := by
  constructor
  · field_simp
    linear_combination (-2 * s * a * c ^ 4) * hb2
  · intro hb
    field_simp
    ring

/-- One round on the two amplitudes: the marked amplitude `sin φ / √M` and the
unmarked amplitude `cos φ / √(N - M)` advance to the angle `φ + 2θ`. -/
theorem grover_step (M N φ : ℝ) (hM : 0 < M) (hMN : M ≤ N) :
    2 * ((M * (-(Real.sin φ / Real.sqrt M)) + (N - M) * (Real.cos φ / Real.sqrt (N - M))) / N)
        - (-(Real.sin φ / Real.sqrt M)) =
      Real.sin (φ + 2 * Real.arcsin (Real.sqrt (M / N))) / Real.sqrt M ∧
    (M < N →
      2 * ((M * (-(Real.sin φ / Real.sqrt M)) + (N - M) * (Real.cos φ / Real.sqrt (N - M))) / N)
        - Real.cos φ / Real.sqrt (N - M) =
      Real.cos (φ + 2 * Real.arcsin (Real.sqrt (M / N))) / Real.sqrt (N - M)) := by
  have hN : 0 < N := lt_of_lt_of_le hM hMN
  obtain ⟨hs, hc⟩ := grover_angle M N hM hMN
  have ha : 0 < Real.sqrt M := Real.sqrt_pos.2 hM
  have hcpos : 0 < Real.sqrt N := Real.sqrt_pos.2 hN
  have ha2 : Real.sqrt M * Real.sqrt M = M := Real.mul_self_sqrt hM.le
  have hb2 : Real.sqrt (N - M) * Real.sqrt (N - M) = N - M := Real.mul_self_sqrt (by linarith)
  have hc2 : Real.sqrt N * Real.sqrt N = N := Real.mul_self_sqrt hN.le
  have e1 : M * (-(Real.sin φ / Real.sqrt M)) = -(Real.sqrt M * Real.sin φ) := by
    rw [mul_neg, ← mul_div_assoc, mul_comm M, mul_div_assoc, Real.div_sqrt, mul_comm]
  have e2 : (N - M) * (Real.cos φ / Real.sqrt (N - M)) = Real.sqrt (N - M) * Real.cos φ := by
    rw [← mul_div_assoc, mul_comm (N - M), mul_div_assoc, Real.div_sqrt, mul_comm]
  have hb2' : Real.sqrt (N - M) * Real.sqrt (N - M) =
      Real.sqrt N * Real.sqrt N - Real.sqrt M * Real.sqrt M := by rw [hb2, hc2, ha2]
  obtain ⟨k1, k2⟩ := grover_step_alg (Real.sqrt M) (Real.sqrt (N - M)) (Real.sqrt N)
    (Real.sin φ) (Real.cos φ) ha hcpos hb2'
  rw [hc2] at k1 k2
  rw [e1, e2, Real.sin_add, Real.cos_add, Real.sin_two_mul, Real.cos_two_mul, hs, hc]
  refine ⟨k1, fun hlt => k2 (Real.sqrt_pos.2 (by linarith))⟩

theorem sum_map_eq_range {K R : Type} [AddCommMonoid R] (f : K → R) (d : K) (l : List K) :
    (l.map f).sum = ∑ i in Finset.range l.length, f (l.getD i d) := by
  induction l with
  | nil => simp
  | cons x xs ih =>
    rw [List.map_cons, List.sum_cons, List.length_cons, Finset.sum_range_succ', ih, add_comm]
    simp

theorem getD_map_lt {K R : Type} (f : K → R) (l : List K) (i : Nat) (d : K) (e : R)
    (h : i < l.length) : (l.map f).getD i e = f (l.getD i d) := by
  simp [List.getD_eq_getElem?_getD, List.getElem?_eq_getElem h]

theorem marked_card (N : Nat) (marked : List Nat) (hnd : marked.Nodup)
    (hin : ∀ t, t ∈ marked → t < N) :
    ((Finset.range N).filter (fun i => i ∈ marked)).card = marked.length := by
  rw [← List.toFinset_card_of_nodup hnd]
  congr 1
  ext i
  simp only [Finset.mem_filter, Finset.mem_range, List.mem_toFinset]
  exact ⟨fun h => h.2, fun h => ⟨hin i h, h⟩⟩

theorem marked_le (N : Nat) (marked : List Nat) (hnd : marked.Nodup)
    (hin : ∀ t, t ∈ marked → t < N) : marked.length ≤ N := by
  rw [← marked_card N marked hnd hin]
  calc ((Finset.range N).filter (fun i => i ∈ marked)).card
      ≤ (Finset.range N).card := Finset.card_filter_le _ _
    _ = N := Finset.card_range N

theorem marked_lt (N : Nat) (marked : List Nat) (hnd : marked.Nodup)
    (hin : ∀ t, t ∈ marked → t < N) (i : Nat) (hi : i < N) (him : i ∉ marked) :
    marked.length < N := by
  rw [← marked_card N marked hnd hin]
  calc ((Finset.range N).filter (fun i => i ∈ marked)).card
      < (Finset.range N).card := by
        apply Finset.card_lt_card
        rw [Finset.ssubset_iff_of_subset (Finset.filter_subset _ _)]
        exact ⟨i, Finset.mem_range.2 hi, fun h => him (Finset.mem_filter.1 h).2⟩
    _ = N := Finset.card_range N

/-- Sum of an array that holds `x` at the marked indices and `y` elsewhere. -/
theorem sum_two_valued (N : Nat) (marked : List Nat) (hnd : marked.Nodup)
    (hin : ∀ t, t ∈ marked → t < N) (x y : ℂ) :
    (∑ i in Finset.range N, if i ∈ marked then x else y) =
      (marked.length : ℂ) * x + ((N : ℂ) - (marked.length : ℂ)) * y := by
  have hle := marked_le N marked hnd hin
  have hc := marked_card N marked hnd hin
  have hc2 : ((Finset.range N).filter (fun i => ¬ i ∈ marked)).card = N - marked.length := by
    have := Finset.filter_card_add_filter_neg_card_eq_card (s := Finset.range N)
      (fun i => i ∈ marked)
    rw [hc, Finset.card_range] at this
    omega
  rw [Finset.sum_ite, Finset.sum_const, Finset.sum_const, hc, hc2, nsmul_eq_mul, nsmul_eq_mul,
    Nat.cast_sub hle]

theorem diffuser_get {K : Type} [Field K] (psi : QuantumState K) (i : Nat)
    (h : i < psi.amp.length) :
    (apply_diffuser psi).get i =
      2 * (psi.amp.sum / (psi.amp.length : K)) - psi.get i := by
  simp only [QuantumState.get]
  rw [diffuser_amp, getD_map_lt _ _ _ 0 0 h]

/-- State after `j` rounds from the uniform superposition: amplitude
`sin((2j+1)θ) / √M` at the marked indices and `cos((2j+1)θ) / √(N - M)` elsewhere. -/
theorem grover_rounds_closed (n : Nat) (marked : List Nat) (hne : marked ≠ [])
    (hnd : marked.Nodup) (hin : ∀ t, t ∈ marked → t < 2 ^ n) (j : Nat) :
    ∃ s, grover_rounds marked j (initialize_uniform (QuantumState.zeros n)) = .ok s ∧
      s.num_qubits = n ∧ s.amp.length = 2 ^ n ∧
      ∀ i, i < 2 ^ n → s.get i =
        if i ∈ marked then
          ((Real.sin ((2 * (j : ℝ) + 1) *
              Real.arcsin (Real.sqrt ((marked.length : ℝ) / (2 : ℝ) ^ n))) /
            Real.sqrt (marked.length : ℝ) : ℝ) : ℂ)
        else
          ((Real.cos ((2 * (j : ℝ) + 1) *
              Real.arcsin (Real.sqrt ((marked.length : ℝ) / (2 : ℝ) ^ n))) /
            Real.sqrt ((2 : ℝ) ^ n - (marked.length : ℝ)) : ℝ) : ℂ) := by
  have hMpos : (0 : ℝ) < (marked.length : ℝ) := by
    have : 0 < marked.length := List.length_pos.2 hne
    exact_mod_cast this
  have hMN : (marked.length : ℝ) ≤ (2 : ℝ) ^ n := by
    have := marked_le (2 ^ n) marked hnd hin
    exact_mod_cast this
  have hNpos : (0 : ℝ) < (2 : ℝ) ^ n := by positivity
  induction j with
  | zero =>
    refine ⟨_, rfl, ?_, ?_, ?_⟩
    · rw [uniform_state]
    · rw [uniform_state]; simp
    · intro i hi
      obtain ⟨hs, hc⟩ := grover_angle _ _ hMpos hMN
      have hget : (initialize_uniform (QuantumState.zeros n)).get i =
          ((1 / Real.sqrt ((2 : ℝ) ^ n) : ℝ) : ℂ) := by
        rw [uniform_state]
        simp only [QuantumState.get, List.getD_eq_getElem?_getD]
        rw [List.getElem?_replicate, if_pos hi]
        rfl
      rw [hget]
      simp only [Nat.cast_zero, mul_zero, zero_add, one_mul]
      rw [hs, hc]
      have ha : Real.sqrt (marked.length : ℝ) ≠ 0 := (Real.sqrt_pos.2 hMpos).ne'
      have hcn : Real.sqrt ((2 : ℝ) ^ n) ≠ 0 := (Real.sqrt_pos.2 hNpos).ne'
      by_cases him : i ∈ marked
      · rw [if_pos him]
        congr 1
        field_simp
      · rw [if_neg him]
        have hlt : (marked.length : ℝ) < (2 : ℝ) ^ n := by
          have := marked_lt (2 ^ n) marked hnd hin i hi him
          exact_mod_cast this
        have hb : Real.sqrt ((2 : ℝ) ^ n - (marked.length : ℝ)) ≠ 0 :=
          (Real.sqrt_pos.2 (by linarith)).ne'
        congr 1
        field_simp
  | succ j ih =>
    obtain ⟨s, hs, hsn, hsl, hpt⟩ := ih
    obtain ⟨s1, hs1, hs1n, hs1l, hpt1⟩ := oracle_spec marked hnd s (by rw [hsl]; exact hin)
    refine ⟨apply_diffuser s1, ?_, by rw [← hsn, ← hs1n]; rfl, ?_, ?_⟩
    · simp only [grover_rounds, hs, Outcome.andThen, grover_round, hs1]
    · rw [diffuser_amp, List.length_map, hs1l, hsl]
    · intro i hi
      have hsum : s1.amp.sum = ∑ k in Finset.range (2 ^ n),
          if k ∈ marked then
            -((Real.sin ((2 * (j : ℝ) + 1) *
                Real.arcsin (Real.sqrt ((marked.length : ℝ) / (2 : ℝ) ^ n))) /
              Real.sqrt (marked.length : ℝ) : ℝ) : ℂ)
          else
            ((Real.cos ((2 * (j : ℝ) + 1) *
                Real.arcsin (Real.sqrt ((marked.length : ℝ) / (2 : ℝ) ^ n))) /
              Real.sqrt ((2 : ℝ) ^ n - (marked.length : ℝ)) : ℝ) : ℂ) := by
        have := sum_map_eq_range (fun x : ℂ => x) 0 s1.amp
        rw [List.map_id'] at this
        rw [this, hs1l, hsl]
        apply Finset.sum_congr rfl
        intro k hk
        have hk2 := Finset.mem_range.1 hk
        have h1 := hpt1 k
        simp only [QuantumState.get] at h1 hpt
        rw [h1, hpt k hk2]
        by_cases hkm : k ∈ marked
        · rw [if_pos hkm, if_pos hkm, if_pos hkm]
        · rw [if_neg hkm, if_neg hkm, if_neg hkm]
      rw [diffuser_get s1 i (by rw [hs1l, hsl]; exact hi), hsum,
        sum_two_valued (2 ^ n) marked hnd hin, hs1l, hsl, hpt1 i, hpt i hi]
      obtain ⟨k1, k2⟩ := grover_step (marked.length : ℝ) ((2 : ℝ) ^ n)
        ((2 * (j : ℝ) + 1) * Real.arcsin (Real.sqrt ((marked.length : ℝ) / (2 : ℝ) ^ n)))
        hMpos hMN
      have hang : (2 * ((j + 1 : ℕ) : ℝ) + 1) *
          Real.arcsin (Real.sqrt ((marked.length : ℝ) / (2 : ℝ) ^ n)) =
          (2 * (j : ℝ) + 1) * Real.arcsin (Real.sqrt ((marked.length : ℝ) / (2 : ℝ) ^ n)) +
            2 * Real.arcsin (Real.sqrt ((marked.length : ℝ) / (2 : ℝ) ^ n)) := by
        push_cast; ring
      rw [hang]
      by_cases him : i ∈ marked
      · simp only [if_pos him]
        rw [← k1]
        generalize Real.sin ((2 * (j : ℝ) + 1) *
          Real.arcsin (Real.sqrt ((marked.length : ℝ) / (2 : ℝ) ^ n))) /
            Real.sqrt (marked.length : ℝ) = A
        generalize Real.cos ((2 * (j : ℝ) + 1) *
          Real.arcsin (Real.sqrt ((marked.length : ℝ) / (2 : ℝ) ^ n))) /
            Real.sqrt ((2 : ℝ) ^ n - (marked.length : ℝ)) = B
        push_cast
        ring
      · have hlt : (marked.length : ℝ) < (2 : ℝ) ^ n := by
          have := marked_lt (2 ^ n) marked hnd hin i hi him
          exact_mod_cast this
        simp only [if_neg him]
        rw [← k2 hlt]
        generalize Real.sin ((2 * (j : ℝ) + 1) *
          Real.arcsin (Real.sqrt ((marked.length : ℝ) / (2 : ℝ) ^ n))) /
            Real.sqrt (marked.length : ℝ) = A
        generalize Real.cos ((2 * (j : ℝ) + 1) *
          Real.arcsin (Real.sqrt ((marked.length : ℝ) / (2 : ℝ) ^ n))) /
            Real.sqrt ((2 : ℝ) ^ n - (marked.length : ℝ)) = B
        push_cast
        ring

theorem iterations_eq (n : Nat) (marked : List Nat) (hne : marked ≠ []) :
    Grover.iterations (2 ^ n) (max 1 marked.length) =
      Nat.floor (Real.pi / 4 * Real.sqrt ((2 : ℝ) ^ n / (marked.length : ℝ))) := by
  have hpos : 0 < marked.length := List.length_pos.2 hne
  simp only [Grover.iterations]
  rw [max_eq_right (by omega)]
  push_cast
  rfl

/-- Unfolding of `Grover::run` on a machine that holds the state, once the loop and
the final query are known to return normally. -/
theorem run_eq_of_rounds (m : Machine) (cfg : GroverConfig) (hm : m.holds cfg.num_qubits)
    (s : QuantumState ℂ) (p : ℝ)
    (hs : grover_rounds cfg.marked
      (Grover.iterations (2 ^ cfg.num_qubits) (max 1 cfg.marked.length))
      (initialize_uniform (QuantumState.zeros cfg.num_qubits)) = .ok s)
    (hp : probability_of_any s cfg.marked = .ok p) :
    Grover.run m cfg =
      .ok ⟨Grover.iterations (2 ^ cfg.num_qubits) (max 1 cfg.marked.length), p⟩ := by
  have hn := holds_lt m cfg.num_qubits hm
  simp only [Grover.run, pow2_ok cfg.num_qubits (by omega), new_ok m cfg.num_qubits hm,
    grover_loop_eq_rounds, hs, hp]

/-- With 63 qubits the run ends in the constructor's `std::length_error`, on every
machine and for every marked list. -/
theorem run_length_error (m : Machine) (marked : List Nat) :
    Grover.run m ⟨63, marked⟩ = .error .length_error := by
  simp only [Grover.run, pow2_ok 63 (by decide), new_length_error]

/-- Probability mass on the marked indices when each of them carries `a`. -/
theorem marked_probability (s : QuantumState ℂ) (marked : List Nat) (a : ℝ)
    (hin : ∀ t, t ∈ marked → t < s.amp.length)
    (hval : ∀ t, t ∈ marked → s.get t = (a : ℂ)) :
    probability_of_any s marked = .ok ((marked.length : ℝ) * (a * a)) := by
  rw [probability_of_any_ok s marked hin]
  congr 1
  have : marked.map (fun i => Complex.normSq (s.get i)) = marked.map (fun _ => a * a) := by
    apply List.map_congr_left
    intro t ht
    rw [hval t ht, Complex.normSq_ofReal]
  rw [this, List.map_const', List.sum_replicate, nsmul_eq_mul]

/-- Closed form of the probability after `j` rounds. -/
theorem rounds_probability (n : Nat) (marked : List Nat) (hne : marked ≠ [])
    (hnd : marked.Nodup) (hin : ∀ t, t ∈ marked → t < 2 ^ n) (j : Nat) :
    ∃ s, grover_rounds marked j (initialize_uniform (QuantumState.zeros n)) = .ok s ∧
      probability_of_any s marked =
        .ok (Real.sin ((2 * (j : ℝ) + 1) *
          Real.arcsin (Real.sqrt ((marked.length : ℝ) / (2 : ℝ) ^ n))) ^ 2) := by
  obtain ⟨s, hs, -, hsl, hpt⟩ := grover_rounds_closed n marked hne hnd hin j
  refine ⟨s, hs, ?_⟩
  have hMpos : (0 : ℝ) < (marked.length : ℝ) := by
    have : 0 < marked.length := List.length_pos.2 hne
    exact_mod_cast this
  rw [marked_probability s marked _ (by rw [hsl]; exact hin)
    (fun t ht => by rw [hpt t (hin t ht), if_pos ht])]
  congr 1
  have ha2 := Real.mul_self_sqrt hMpos.le
  have ha : Real.sqrt (marked.length : ℝ) ≠ 0 := (Real.sqrt_pos.2 hMpos).ne'
  generalize Real.sin ((2 * (j : ℝ) + 1) *
    Real.arcsin (Real.sqrt ((marked.length : ℝ) / (2 : ℝ) ^ n))) = S
  have e : (marked.length : ℝ) * (S / Real.sqrt (marked.length : ℝ) *
      (S / Real.sqrt (marked.length : ℝ))) =
      (marked.length : ℝ) * (S * S) /
        (Real.sqrt (marked.length : ℝ) * Real.sqrt (marked.length : ℝ)) := by ring
  rw [e, ha2]
  field_simp
  ring

/-- Closed form of the result of `Grover::run` on a valid configuration, on a machine
that holds the state. -/
theorem run_closed_form (m : Machine) (n : Nat) (marked : List Nat) (hm : m.holds n)
    (hne : marked ≠ []) (hnd : marked.Nodup) (hin : ∀ t, t ∈ marked → t < 2 ^ n) :
    Grover.run m ⟨n, marked⟩ =
      .ok ⟨Nat.floor (Real.pi / 4 * Real.sqrt ((2 : ℝ) ^ n / (marked.length : ℝ))),
        Real.sin ((2 * (Nat.floor (Real.pi / 4 *
            Real.sqrt ((2 : ℝ) ^ n / (marked.length : ℝ))) : ℝ) + 1) *
          Real.arcsin (Real.sqrt ((marked.length : ℝ) / (2 : ℝ) ^ n))) ^ 2⟩ := by
  obtain ⟨s, hs, hp⟩ := rounds_probability n marked hne hnd hin
    (Grover.iterations (2 ^ n) (max 1 marked.length))
  have h := run_eq_of_rounds m ⟨n, marked⟩ hm s _ hs hp
  rw [iterations_eq n marked hne] at h
  exact h

theorem lp64_holds (n : Nat) (h : n ≤ 30) : lp64.holds n := by
  have h1 : 2 ^ n ≤ 2 ^ 30 := Nat.pow_le_pow_right (by decide) h
  constructor
  · have : (2 : Nat) ^ 30 ≤ 2 ^ 59 - 1 := by decide
    exact Nat.le_trans h1 this
  · exact h1

/-- C5 (as the code has it): on a machine that holds `n` qubits the state is
constructed, and for `M ≥ 1` pairwise distinct marked indices below `2 ^ n` (so
`M ≤ 2 ^ n`) every number `j` of rounds from the uniform superposition ends normally
in a state whose `probability_of_any(marked)` is `sin²((2j+1)θ)` with
`θ = arcsin √(M / 2^n)`, and `Grover::run` returns `k = ⌊(π/4)·√(2^n / M)⌋` together
with `sin²((2k+1)θ)`. -/
theorem C5_closed_form_schedule (m : Machine) (n : Nat) (marked : List Nat)
    (hm : m.holds n) (hne : marked ≠ [])
    (hnd : marked.Nodup) (hin : ∀ t, t ∈ marked → t < 2 ^ n) :
    (QuantumState.new m n : Except Fault (QuantumState ℂ)) = .ok (QuantumState.zeros n) ∧
    (1 ≤ marked.length ∧ marked.length ≤ 2 ^ n) ∧
    (∀ j : Nat, ∃ s,
      grover_rounds marked j (initialize_uniform (QuantumState.zeros n)) = .ok s ∧
      probability_of_any s marked =
        .ok (Real.sin ((2 * (j : ℝ) + 1) *
          Real.arcsin (Real.sqrt ((marked.length : ℝ) / (2 : ℝ) ^ n))) ^ 2)) ∧
    Grover.run m ⟨n, marked⟩ =
      .ok ⟨Nat.floor (Real.pi / 4 * Real.sqrt ((2 : ℝ) ^ n / (marked.length : ℝ))),
        Real.sin ((2 * (Nat.floor (Real.pi / 4 *
            Real.sqrt ((2 : ℝ) ^ n / (marked.length : ℝ))) : ℝ) + 1) *
          Real.arcsin (Real.sqrt ((marked.length : ℝ) / (2 : ℝ) ^ n))) ^ 2⟩ :=
  ⟨new_ok m n hm, ⟨List.length_pos.2 hne, marked_le (2 ^ n) marked hnd hin⟩,
    rounds_probability n marked hne hnd hin, run_closed_form m n marked hm hne hnd hin⟩

theorem C5_closed_form_schedule_witness :
    (QuantumState.new lp64 3 : Except Fault (QuantumState ℂ)) = .ok (QuantumState.zeros 3) ∧
    (1 ≤ [0, 1].length ∧ [0, 1].length ≤ 2 ^ 3) ∧
    (∀ j : Nat, ∃ s,
      grover_rounds [0, 1] j (initialize_uniform (QuantumState.zeros 3)) = .ok s ∧
      probability_of_any s [0, 1] =
        .ok (Real.sin ((2 * (j : ℝ) + 1) *
          Real.arcsin (Real.sqrt ((([0, 1] : List Nat).length : ℝ) / (2 : ℝ) ^ 3))) ^ 2)) ∧
    Grover.run lp64 ⟨3, [0, 1]⟩ =
      .ok ⟨Nat.floor (Real.pi / 4 * Real.sqrt ((2 : ℝ) ^ 3 / (([0, 1] : List Nat).length : ℝ))),
        Real.sin ((2 * (Nat.floor (Real.pi / 4 *
            Real.sqrt ((2 : ℝ) ^ 3 / (([0, 1] : List Nat).length : ℝ))) : ℝ) + 1) *
          Real.arcsin (Real.sqrt ((([0, 1] : List Nat).length : ℝ) / (2 : ℝ) ^ 3))) ^ 2⟩ :=
  C5_closed_form_schedule lp64 3 [0, 1] (lp64_holds 3 (by decide)) (by decide) (by decide)
    (by decide)

/-- C5, counterexample: `n = 63` with the single marked index 0 satisfies
`1 ≤ M ≤ 2 ^ n` with distinct in-range indices, yet no state of `2 ^ 63` amplitudes is
constructed and `Grover::run` ends in `std::length_error` instead of returning the
closed-form probability. -/
theorem C5_counterexample :
    ([0] : List Nat).Nodup ∧ (∀ t, t ∈ [0] → t < 2 ^ 63) ∧
    (1 ≤ ([0] : List Nat).length ∧ ([0] : List Nat).length ≤ 2 ^ 63) ∧
    (QuantumState.new lp64 63 : Except Fault (QuantumState ℂ)) = .error .length_error ∧
    Grover.run lp64 ⟨63, [0]⟩ = .error .length_error :=
  ⟨by decide, by decide, ⟨by decide, by decide⟩, new_length_error lp64,
    run_length_error lp64 [0]⟩

/-- C3 (as the code has it): on a machine that holds `n` qubits and on a valid
configuration (marked indices non-empty, pairwise distinct and below `2 ^ n`)
`Grover::run` returns normally and its `success_probability` lies in `[0, 1]`. -/
theorem C3_success_probability_bounds (m : Machine) (n : Nat) (marked : List Nat)
    (hm : m.holds n) (hne : marked ≠ [])
    (hnd : marked.Nodup) (hin : ∀ t, t ∈ marked → t < 2 ^ n) :
    ∃ res, Grover.run m ⟨n, marked⟩ = .ok res ∧
      0 ≤ res.success_probability ∧ res.success_probability ≤ 1 := by
  refine ⟨_, run_closed_form m n marked hm hne hnd hin, sq_nonneg _, Real.sin_sq_le_one _⟩

theorem C3_success_probability_bounds_witness :
    ∃ res, Grover.run lp64 ⟨1, [1]⟩ = .ok res ∧
      0 ≤ res.success_probability ∧ res.success_probability ≤ 1 :=
  C3_success_probability_bounds lp64 1 [1] (lp64_holds 1 (by decide)) (by decide) (by decide)
    (by decide)

/-- C3, counterexample: `num_qubits = 63`, `marked = [0]` is a valid configuration
(non-empty, distinct, index below `2 ^ 63`), and `Grover::run` does not return: the
constructor throws `std::length_error`. -/
theorem C3_counterexample :
    ([0] : List Nat) ≠ [] ∧ ([0] : List Nat).Nodup ∧ (∀ t, t ∈ [0] → t < 2 ^ 63) ∧
    Grover.run lp64 ⟨63, [0]⟩ = .error .length_error ∧
    ¬ ∃ res, Grover.run lp64 ⟨63, [0]⟩ = .ok res := by
  refine ⟨by decide, by decide, by decide, run_length_error lp64 [0], ?_⟩
  rintro ⟨res, h⟩
  rw [run_length_error] at h
  exact absurd h (by simp)

theorem sqrt_four : Real.sqrt 4 = 2 := by
  rw [show (4 : ℝ) = 2 ^ 2 by norm_num]
  exact Real.sqrt_sq (by norm_num)

/-- C2: on `num_qubits = 2`, `marked = {3}`, on a machine that holds 2 qubits, the
driver constructs a state of dimension 4, runs exactly one iteration and returns
`success_probability = 1`. -/
theorem C2_scenario_two_qubits (m : Machine) (hm : m.holds 2) :
    (∃ psi : QuantumState ℂ, QuantumState.new m 2 = .ok psi ∧ psi.dim = 4 ∧
      (initialize_uniform psi).dim = 4) ∧
    Grover.run m ⟨2, [3]⟩ = .ok ⟨1, 1⟩ := by
  constructor
  · refine ⟨QuantumState.zeros 2, new_ok m 2 hm, rfl, ?_⟩
    rw [uniform_state]; rfl
  · have hθ : Real.arcsin (Real.sqrt ((([3] : List Nat).length : ℝ) / (2 : ℝ) ^ 2)) =
        Real.pi / 6 := by
      have h4 : ((([3] : List Nat).length : ℝ) / (2 : ℝ) ^ 2) = (1 / 2) ^ 2 := by norm_num
      rw [h4, Real.sqrt_sq (by norm_num)]
      apply Real.arcsin_eq_of_sin_eq Real.sin_pi_div_six
      constructor <;> linarith [Real.pi_pos]
    have hk : Nat.floor (Real.pi / 4 *
        Real.sqrt ((2 : ℝ) ^ 2 / (([3] : List Nat).length : ℝ))) = 1 := by
      have h4 : ((2 : ℝ) ^ 2 / (([3] : List Nat).length : ℝ)) = 4 := by norm_num
      rw [h4, sqrt_four, Nat.floor_eq_iff (by positivity)]
      constructor
      · have := Real.pi_gt_three
        norm_num
        linarith
      · have := Real.pi_lt_four
        norm_num
        linarith
    rw [run_closed_form m 2 [3] hm (by decide) (by decide) (by decide), hk, hθ]
    have : (2 * ((1 : ℕ) : ℝ) + 1) * (Real.pi / 6) = Real.pi / 2 := by push_cast; ring
    rw [this, Real.sin_pi_div_two]
    norm_num

theorem C2_scenario_two_qubits_witness :
    (∃ psi : QuantumState ℂ, QuantumState.new lp64 2 = .ok psi ∧ psi.dim = 4 ∧
      (initialize_uniform psi).dim = 4) ∧
    Grover.run lp64 ⟨2, [3]⟩ = .ok ⟨1, 1⟩ :=
  C2_scenario_two_qubits lp64 (lp64_holds 2 (by decide))

/-- With every marked index inside the vector every number of rounds returns
normally and keeps the shape of the state. -/
theorem rounds_ok (marked : List Nat) (psi : QuantumState ℂ)
    (hin : ∀ t, t ∈ marked → t < psi.amp.length) (j : Nat) :
    ∃ s, grover_rounds marked j psi = .ok s ∧ s.num_qubits = psi.num_qubits ∧
      s.amp.length = psi.amp.length := by
  induction j with
  | zero => exact ⟨psi, rfl, rfl, rfl⟩
  | succ j ih =>
    obtain ⟨s, hs, hsn, hsl⟩ := ih
    obtain ⟨s1, hs1, hs1n, hs1l⟩ := oracle_ok marked s (by rw [hsl]; exact hin)
    refine ⟨apply_diffuser s1, ?_, by rw [← hsn, ← hs1n]; rfl, ?_⟩
    · simp only [grover_rounds, hs, Outcome.andThen, hs1]
    · rw [diffuser_amp, List.length_map, hs1l, hsl]

theorem rounds_state (marked : List Nat) (psi : QuantumState ℂ)
    (hin : ∀ t, t ∈ marked → t < psi.amp.length) (j : Nat) :
    grover_rounds marked j psi = .ok (grover_rounds marked j psi).state ∧
      (grover_rounds marked j psi).state.amp.length = psi.amp.length := by
  obtain ⟨s, hs, -, hsl⟩ := rounds_ok marked psi hin j
  rw [hs]
  exact ⟨rfl, hsl⟩

/-! ## Preservation of the total probability -/

theorem total_probability_eq (psi : QuantumState ℂ) :
    total_probability psi = ∑ i in Finset.range psi.amp.length, Complex.normSq (psi.get i) := by
  simp only [total_probability, QuantumState.get]
  rw [sum_map_eq_range _ 0]
  apply Finset.sum_congr rfl
  intro i _
  rw [Complex.normSq_apply]

/-- Sums agree when an involution of the index range pairs up equal contributions. -/
theorem sum_pairing (N : Nat) (σ : Nat → Nat) (hr : ∀ i, i < N → σ i < N)
    (hinv : ∀ i, i < N → σ (σ i) = i) (f g : Nat → ℝ)
    (hpair : ∀ i, i < N → g i + g (σ i) = f i + f (σ i)) :
    ∑ i in Finset.range N, g i = ∑ i in Finset.range N, f i := by
  have hperm : ∀ h : Nat → ℝ, ∑ i in Finset.range N, h (σ i) = ∑ i in Finset.range N, h i := by
    intro h
    apply Finset.sum_nbij' σ σ
    · intro i hi; exact Finset.mem_range.2 (hr i (Finset.mem_range.1 hi))
    · intro i hi; exact Finset.mem_range.2 (hr i (Finset.mem_range.1 hi))
    · intro i hi; exact hinv i (Finset.mem_range.1 hi)
    · intro i hi; exact hinv i (Finset.mem_range.1 hi)
    · intro i _; rfl
  have h2 : ∑ i in Finset.range N, (g i + g (σ i)) = ∑ i in Finset.range N, (f i + f (σ i)) :=
    Finset.sum_congr rfl (fun i hi => hpair i (Finset.mem_range.1 hi))
  rw [Finset.sum_add_distrib, Finset.sum_add_distrib, hperm g, hperm f] at h2
  linarith

theorem unitary_entries (U : Matrix (Fin 2) (Fin 2) ℂ)
    (hU : U ∈ Matrix.unitaryGroup (Fin 2) ℂ) :
    star (U 0 0) * U 0 0 + star (U 1 0) * U 1 0 = 1 ∧
    star (U 0 0) * U 0 1 + star (U 1 0) * U 1 1 = 0 ∧
    star (U 0 1) * U 0 0 + star (U 1 1) * U 1 0 = 0 ∧
    star (U 0 1) * U 0 1 + star (U 1 1) * U 1 1 = 1 := by
  have h := Matrix.mem_unitaryGroup_iff'.1 hU
  have e : ∀ i j, (star U * U) i j = (1 : Matrix (Fin 2) (Fin 2) ℂ) i j := by
    intro i j; rw [h]
  have e00 := e 0 0
  have e01 := e 0 1
  have e10 := e 1 0
  have e11 := e 1 1
  simp only [Matrix.mul_apply, Fin.sum_univ_two, Matrix.star_apply, Matrix.one_apply_eq,
    Matrix.one_apply_ne, ne_eq, Fin.isValue, zero_ne_one, one_ne_zero, not_false_eq_true]
    at e00 e01 e10 e11
  exact ⟨e00, e01, e10, e11⟩

/-- A unitary matrix keeps the squared magnitude of a pair of amplitudes. -/
theorem unitary_pair (U : Matrix (Fin 2) (Fin 2) ℂ)
    (hU : U ∈ Matrix.unitaryGroup (Fin 2) ℂ) (a b : ℂ) :
    Complex.normSq (U 0 0 * a + U 0 1 * b) + Complex.normSq (U 1 0 * a + U 1 1 * b) =
      Complex.normSq a + Complex.normSq b := by
  obtain ⟨h00, h01, h10, h11⟩ := unitary_entries U hU
  apply Complex.ofReal_injective
  push_cast
  simp only [Complex.normSq_eq_conj_mul_self, map_add, map_mul]
  simp only [← Complex.star_def] 
  linear_combination (star a * a) * h00 + (star a * b) * h01 + (star b * a) * h10 +
    (star b * b) * h11

theorem gate_total (n q : Nat) (U : Matrix (Fin 2) (Fin 2) ℂ)
    (hU : U ∈ Matrix.unitaryGroup (Fin 2) ℂ) (psi : QuantumState ℂ)
    (hn : psi.num_qubits = n) (hdim : psi.amp.length = 2 ^ n) (hq : q < n) :
    ∃ r, apply_single_qubit_gate psi q U = .ok r ∧ r.num_qubits = n ∧
      r.amp.length = 2 ^ n ∧ total_probability r = total_probability psi := by
  obtain ⟨r, hr, hrn, hrl, hpt⟩ := gate_spec n q U psi hn hdim hq
  refine ⟨r, hr, hrn, hrl, ?_⟩
  rw [total_probability_eq, total_probability_eq, hrl, hdim]
  apply sum_pairing (2 ^ n) (fun i => if i.testBit q then i - 2 ^ q else i + 2 ^ q)
  · intro i hi
    by_cases hb : i.testBit q = true
    · simp only [if_pos hb]; exact Nat.lt_of_le_of_lt (Nat.sub_le _ _) hi
    · simp only [if_neg hb]; exact partner_lt q n i hq hi (by simpa using hb)
  · intro i hi
    by_cases hb : i.testBit q = true
    · simp only [if_pos hb, testBit_sub_pow i q hb]
      simp only [Bool.false_eq_true, if_false]
      exact Nat.sub_add_cancel (Nat.testBit_implies_ge hb)
    · have hb1 : i.testBit q = false := by simpa using hb
      simp [hb1, testBit_add_pow]
  · intro i hi
    by_cases hb : i.testBit q = true
    · have hge := Nat.testBit_implies_ge hb
      have hb2 := testBit_sub_pow i q hb
      have hlt : i - 2 ^ q < 2 ^ n := Nat.lt_of_le_of_lt (Nat.sub_le _ _) hi
      simp only [if_pos hb]
      rw [hpt i hi, hpt _ hlt, if_pos hb, if_neg (by simp [hb2]), Nat.sub_add_cancel hge,
        add_comm, unitary_pair U hU, add_comm]
    · have hb1 : i.testBit q = false := by simpa using hb
      have hlt := partner_lt q n i hq hi hb1
      have hb2 : (i + 2 ^ q).testBit q = true := by rw [testBit_add_pow, hb1]; rfl
      simp only [if_neg hb]
      rw [hpt i hi, hpt _ hlt, if_neg hb, if_pos hb2, Nat.add_sub_cancel, unitary_pair U hU]

theorem cnot_total (n control target : Nat) (psi : QuantumState ℂ)
    (hn : psi.num_qubits = n) (hdim : psi.amp.length = 2 ^ n)
    (hc : control < n) (ht : target < n) (hne : control ≠ target) :
    ∃ r, apply_cnot psi control target = .ok r ∧ r.num_qubits = n ∧
      r.amp.length = 2 ^ n ∧ total_probability r = total_probability psi := by
  obtain ⟨r, hr, hrn, hrl, hpt⟩ := cnot_spec n control target psi hn hdim hc ht hne
  refine ⟨r, hr, hrn, hrl, ?_⟩
  rw [total_probability_eq, total_probability_eq, hrl, hdim]
  apply sum_pairing (2 ^ n) (fun i => if i.testBit control then i ^^^ 2 ^ target else i)
  · intro i hi
    by_cases hb : i.testBit control = true
    · simp only [if_pos hb]; exact xor_pow_lt_two_pow i target n hi ht
    · simp only [if_neg hb]; exact hi
  · intro i hi
    by_cases hb : i.testBit control = true
    · simp only [if_pos hb, testBit_xor_pow_ne i target control (Ne.symm hne), xor_pow_xor_pow]
    · simp only [if_neg hb]
  · intro i hi
    by_cases hb : i.testBit control = true
    · have hlt := xor_pow_lt_two_pow i target n hi ht
      simp only [if_pos hb]
      rw [hpt i hi, hpt _ hlt, if_pos hb, testBit_xor_pow_ne i target control (Ne.symm hne),
        if_pos hb, xor_pow_xor_pow, add_comm]
    · simp only [if_neg hb]
      rw [hpt i hi, if_neg hb]

/-- Negating one amplitude inside the vector keeps the shape and the total. -/
theorem negate_total (psi : QuantumState ℂ) (t : Nat) (ht : t < psi.amp.length) :
    total_probability { psi with amp := psi.amp.set t (-psi.amp.getD t 0) } =
      total_probability psi := by
  rw [total_probability_eq, total_probability_eq]
  simp only [List.length_set, QuantumState.get]
  apply Finset.sum_congr rfl
  intro i _
  rw [getD_set_eq _ _ _ _ _ ht]
  by_cases hit : i = t
  · rw [if_pos hit, Complex.normSq_neg, hit]
  · rw [if_neg hit]

theorem single_oracle_total (psi : QuantumState ℂ) (t : Nat) (ht : t < psi.amp.length) :
    ∃ r, SingleIndexPhaseOracle.apply t psi = .ok r ∧ r.num_qubits = psi.num_qubits ∧
      r.amp.length = psi.amp.length ∧ total_probability r = total_probability psi := by
  refine ⟨{ psi with amp := psi.amp.set t (-psi.amp.getD t 0) }, ?_, rfl, by simp,
    negate_total psi t ht⟩
  simp only [SingleIndexPhaseOracle.apply]
  rw [if_neg (by simp only [QuantumState.dim]; omega)]

theorem multi_oracle_total (targets : List Nat) (psi : QuantumState ℂ)
    (hin : ∀ t, t ∈ targets → t < psi.amp.length) :
    ∃ r, MultiIndexPhaseOracle.apply targets psi = .ok r ∧ r.num_qubits = psi.num_qubits ∧
      r.amp.length = psi.amp.length ∧ total_probability r = total_probability psi := by
  apply forEach_rule _
    (fun s => s.num_qubits = psi.num_qubits ∧ s.amp.length = psi.amp.length ∧
      total_probability s = total_probability psi) targets ?_ psi ⟨rfl, rfl, rfl⟩
  intro t ht s ⟨hs1, hs2, hs3⟩
  have hts : t < s.amp.length := by rw [hs2]; exact hin t ht
  refine ⟨{ s with amp := s.amp.set t (-s.amp.getD t 0) }, ?_, hs1, by simp [hs2],
    by rw [negate_total s t hts, hs3]⟩
  rw [if_neg (by simp only [QuantumState.dim]; omega)]

theorem normSq_reflect (m a : ℂ) :
    Complex.normSq (2 * m - a) =
      4 * Complex.normSq m - 4 * (m * star a).re + Complex.normSq a := by
  simp only [Complex.normSq_apply, Complex.sub_re, Complex.sub_im, Complex.mul_re,
    Complex.mul_im, Complex.star_def, Complex.conj_re, Complex.conj_im, Complex.re_ofNat,
    Complex.im_ofNat]
  ring

theorem sum_normSq_reflect (l : List ℂ) (m : ℂ) :
    (l.map (fun a => Complex.normSq (2 * m - a))).sum =
      4 * (l.length : ℝ) * Complex.normSq m - 4 * (m * star l.sum).re +
        (l.map Complex.normSq).sum := by
  induction l with
  | nil => simp
  | cons x xs ih =>
    rw [List.map_cons, List.sum_cons, List.map_cons, List.sum_cons, List.sum_cons,
      List.length_cons, ih, normSq_reflect, star_add, mul_add, Complex.add_re]
    push_cast
    ring

theorem diffuser_total (psi : QuantumState ℂ) (hN : psi.amp.length ≠ 0) :
    total_probability (apply_diffuser psi) = total_probability psi := by
  have hNc : (psi.amp.length : ℂ) ≠ 0 := by exact_mod_cast hN
  have hNr : (psi.amp.length : ℝ) ≠ 0 := by exact_mod_cast hN
  have e1 : ∀ s : QuantumState ℂ, total_probability s = (s.amp.map Complex.normSq).sum := by
    intro s
    rfl
  rw [e1, e1, diffuser_amp, List.map_map]
  have := sum_normSq_reflect psi.amp (psi.amp.sum / (psi.amp.length : ℂ))
  simp only [Function.comp_def]
  rw [this]
  have hsum : psi.amp.sum = (psi.amp.length : ℂ) * (psi.amp.sum / (psi.amp.length : ℂ)) := by
    field_simp
  generalize psi.amp.sum / (psi.amp.length : ℂ) = m at hsum ⊢
  rw [hsum]
  have : (m * star ((psi.amp.length : ℂ) * m)).re = (psi.amp.length : ℝ) * Complex.normSq m := by
    simp only [star_mul', Complex.star_def, Complex.conj_natCast, Complex.normSq_apply,
      Complex.mul_re, Complex.mul_im, Complex.conj_re, Complex.conj_im, Complex.natCast_re,
      Complex.natCast_im]
    ring
  rw [this]
  ring

/-- Every valid operation returns normally, keeps the shape of the state and keeps
the total probability. -/
theorem op_total (n : Nat) (op : UnitaryOp) (hv : op.valid n) (psi : QuantumState ℂ)
    (hn : psi.num_qubits = n) (hdim : psi.amp.length = 2 ^ n) :
    ∃ r, op.apply psi = .ok r ∧ r.num_qubits = n ∧ r.amp.length = 2 ^ n ∧
      total_probability r = total_probability psi := by
  cases op with
  | gate q U => exact gate_total n q U hv.2 psi hn hdim hv.1
  | cnot control target => exact cnot_total n control target psi hn hdim hv.1 hv.2.1 hv.2.2
  | diffuser =>
    refine ⟨apply_diffuser psi, rfl, hn, ?_, diffuser_total psi ?_⟩
    · rw [diffuser_amp, List.length_map, hdim]
    · rw [hdim]; exact (Nat.two_pow_pos n).ne'
  | single_oracle target =>
    obtain ⟨r, hr, hrn, hrl, ht⟩ := single_oracle_total psi target (by rw [hdim]; exact hv)
    exact ⟨r, hr, by rw [hrn, hn], by rw [hrl, hdim], ht⟩
  | multi_oracle targets =>
    obtain ⟨r, hr, hrn, hrl, ht⟩ := multi_oracle_total targets psi (by rw [hdim]; exact hv)
    exact ⟨r, hr, by rw [hrn, hn], by rw [hrl, hdim], ht⟩

/-- C6: on a state of `2 ^ n` amplitudes every valid unitary operation (a unitary
single-qubit gate on `q < n`, a CNOT with distinct `control, target < n`, the
diffuser, a single-target or multi-target phase oracle with targets below `2 ^ n`)
returns normally and keeps the sum of squared magnitudes, and so does every sequence
of such operations; a total of 1 stays 1. -/
theorem C6_total_probability_preserved (n : Nat) (psi : QuantumState ℂ)
    (hn : psi.num_qubits = n) (hdim : psi.amp.length = 2 ^ n) :
    (∀ op : UnitaryOp, op.valid n →
      ∃ r, op.apply psi = .ok r ∧ r.num_qubits = n ∧ r.amp.length = 2 ^ n ∧
        total_probability r = total_probability psi) ∧
    (∀ ops : List UnitaryOp, (∀ op, op ∈ ops → op.valid n) →
      ∃ r, forEach UnitaryOp.apply ops psi = .ok r ∧ r.num_qubits = n ∧
        r.amp.length = 2 ^ n ∧ total_probability r = total_probability psi ∧
        (total_probability psi = 1 → total_probability r = 1)) := by
  refine ⟨fun op hv => op_total n op hv psi hn hdim, ?_⟩
  intro ops hops
  obtain ⟨r, hr, hrn, hrl, ht⟩ := forEach_rule UnitaryOp.apply
    (fun s => s.num_qubits = n ∧ s.amp.length = 2 ^ n ∧
      total_probability s = total_probability psi) ops
    (fun op hop s hs => by
      obtain ⟨t, h1, h2, h3, h4⟩ := op_total n op (hops op hop) s hs.1 hs.2.1
      exact ⟨t, h1, h2, h3, by rw [h4, hs.2.2]⟩)
    psi ⟨hn, hdim, rfl⟩
  exact ⟨r, hr, hrn, hrl, ht, fun h1 => by rw [ht, h1]⟩

theorem C6_total_probability_preserved_witness :
    (∀ op : UnitaryOp, op.valid 1 →
      ∃ r, op.apply (⟨1, [1, 0]⟩ : QuantumState ℂ) = .ok r ∧ r.num_qubits = 1 ∧
        r.amp.length = 2 ^ 1 ∧
        total_probability r = total_probability (⟨1, [1, 0]⟩ : QuantumState ℂ)) ∧
    (∀ ops : List UnitaryOp, (∀ op, op ∈ ops → op.valid 1) →
      ∃ r, forEach UnitaryOp.apply ops (⟨1, [1, 0]⟩ : QuantumState ℂ) = .ok r ∧
        r.num_qubits = 1 ∧ r.amp.length = 2 ^ 1 ∧
        total_probability r = total_probability (⟨1, [1, 0]⟩ : QuantumState ℂ) ∧
        (total_probability (⟨1, [1, 0]⟩ : QuantumState ℂ) = 1 → total_probability r = 1)) :=
  C6_total_probability_preserved 1 ⟨1, [1, 0]⟩ rfl rfl

/-! ## Refused arguments -/

/-- The single check of `apply_cnot`: every refused pair of arguments ends in
`invalid_argument` with the state untouched. -/
theorem cnot_refused {K : Type} [Zero K] (psi : QuantumState K) (control target : Nat)
    (h : control = target ∨ control ≥ psi.num_qubits ∨ target ≥ psi.num_qubits) :
    apply_cnot psi control target = .thrown .invalid_argument psi := by
  simp only [apply_cnot]
  rw [if_pos]
  rcases h with h | h | h
  · exact Or.inr (Or.inr h)
  · exact Or.inl h
  · exact Or.inr (Or.inl h)

/-- C11 (as the code has it): on a state of `2 ^ n` amplitudes `apply_cnot` fails
exactly when `control == target` or `control >= n` or `target >= n`, and every such
failure is reported as `invalid_argument` with the state unchanged. -/
theorem C11_cnot_failure_is_invalid_argument (n control target : Nat) (psi : QuantumState ℂ)
    (hn : psi.num_qubits = n) (hdim : psi.amp.length = 2 ^ n) :
    ((control = target ∨ control ≥ n ∨ target ≥ n) →
      apply_cnot psi control target = .thrown .invalid_argument psi) ∧
    (¬ (control = target ∨ control ≥ n ∨ target ≥ n) →
      ∃ r, apply_cnot psi control target = .ok r) := by
  constructor
  · intro h
    exact cnot_refused psi control target (by rw [hn]; exact h)
  · intro h
    obtain ⟨r, hr, -⟩ := cnot_spec n control target psi hn hdim (by omega) (by omega) (by omega)
    exact ⟨r, hr⟩

theorem C11_cnot_failure_is_invalid_argument_witness :
    ((0 = 1 ∨ 0 ≥ 1 ∨ 1 ≥ 1) →
      apply_cnot (⟨1, [1, 0]⟩ : QuantumState ℂ) 0 1 =
        .thrown .invalid_argument ⟨1, [1, 0]⟩) ∧
    (¬ (0 = 1 ∨ 0 ≥ 1 ∨ 1 ≥ 1) →
      ∃ r, apply_cnot (⟨1, [1, 0]⟩ : QuantumState ℂ) 0 1 = .ok r) :=
  C11_cnot_failure_is_invalid_argument 1 0 1 ⟨1, [1, 0]⟩ rfl rfl

/-- C11, counterexample: with one qubit, `control = 0` and `target = 1` differ and
`target` exceeds `n - 1`, yet the failure is `invalid_argument`, not `out_of_range`. -/
theorem C11_counterexample :
    (0 : Nat) ≠ 1 ∧ (1 : Nat) ≥ 1 ∧
    apply_cnot (⟨1, [1, 0]⟩ : QuantumState ℂ) 0 1 = .thrown .invalid_argument ⟨1, [1, 0]⟩ ∧
    ¬ ∃ s, apply_cnot (⟨1, [1, 0]⟩ : QuantumState ℂ) 0 1 = .thrown .out_of_range s := by
  have h : apply_cnot (⟨1, [1, 0]⟩ : QuantumState ℂ) 0 1 =
      .thrown .invalid_argument ⟨1, [1, 0]⟩ :=
    cnot_refused _ 0 1 (Or.inr (Or.inr (Nat.le_refl 1)))
  refine ⟨by decide, by decide, h, ?_⟩
  rintro ⟨s, hs⟩
  rw [h] at hs
  injection hs with he _
  exact absurd he (by decide)

/-- C12: on a state of `2 ^ n` amplitudes each validated operation called with a
refused argument ends in an exception and leaves the object (amplitudes and
`num_qubits`) exactly as it was. -/
theorem C12_failure_is_atomic (n : Nat) (psi : QuantumState ℂ)
    (hn : psi.num_qubits = n) (hdim : psi.amp.length = 2 ^ n) :
    (∀ index, index ≥ 2 ^ n → initialize_basis psi index = .thrown .out_of_range psi) ∧
    (∀ q (U : Matrix (Fin 2) (Fin 2) ℂ), q ≥ n →
      apply_single_qubit_gate psi q U = .thrown .out_of_range psi) ∧
    (∀ control target, (control = target ∨ control ≥ n ∨ target ≥ n) →
      apply_cnot psi control target = .thrown .invalid_argument psi) ∧
    (∀ target, target ≥ 2 ^ n →
      SingleIndexPhaseOracle.apply target psi = .thrown .out_of_range psi) := by
  refine ⟨?_, ?_, ?_, ?_⟩
  · intro index h
    simp only [initialize_basis, QuantumState.dim]
    rw [if_pos (by omega)]
  · intro q U h
    simp only [apply_single_qubit_gate]
    rw [if_pos (by omega)]
  · intro control target h
    exact cnot_refused psi control target (by rw [hn]; exact h)
  · intro target h
    simp only [SingleIndexPhaseOracle.apply, QuantumState.dim]
    rw [if_pos (by omega)]

theorem C12_failure_is_atomic_witness :
    (∀ index, index ≥ 2 ^ 1 →
      initialize_basis (⟨1, [3, 4]⟩ : QuantumState ℂ) index =
        .thrown .out_of_range ⟨1, [3, 4]⟩) ∧
    (∀ q (U : Matrix (Fin 2) (Fin 2) ℂ), q ≥ 1 →
      apply_single_qubit_gate (⟨1, [3, 4]⟩ : QuantumState ℂ) q U =
        .thrown .out_of_range ⟨1, [3, 4]⟩) ∧
    (∀ control target, (control = target ∨ control ≥ 1 ∨ target ≥ 1) →
      apply_cnot (⟨1, [3, 4]⟩ : QuantumState ℂ) control target =
        .thrown .invalid_argument ⟨1, [3, 4]⟩) ∧
    (∀ target, target ≥ 2 ^ 1 →
      SingleIndexPhaseOracle.apply target (⟨1, [3, 4]⟩ : QuantumState ℂ) =
        .thrown .out_of_range ⟨1, [3, 4]⟩) :=
  C12_failure_is_atomic 1 ⟨1, [3, 4]⟩ rfl rfl

/-! ## Initialisation -/

theorem getD_map_const {K R : Type} (l : List K) (c d : R) (i : Nat) (h : i < l.length) :
    (l.map (fun _ => c)).getD i d = c := by
  rw [getD_map_lt (fun _ => c) l i (l.getD i (l.get ⟨i, h⟩)) d h]

/-- C13: on a state of `2 ^ n` amplitudes and for `i < 2 ^ n`, `initialize_basis(i)`
returns normally; afterwards the amplitude at `i` is `1` and
`probability_of_index(i)` is `1`, and for every other `j < 2 ^ n` the amplitude is
`0` and `probability_of_index(j)` is `0`. -/
theorem C13_initialize_basis_round_trip (n i : Nat) (psi : QuantumState ℂ)
    (hn : psi.num_qubits = n) (hdim : psi.amp.length = 2 ^ n) (hi : i < 2 ^ n) :
    ∃ r, initialize_basis psi i = .ok r ∧ r.num_qubits = n ∧ r.amp.length = 2 ^ n ∧
      r.get i = 1 ∧ probability_of_index r i = .ok 1 ∧
      ∀ j, j < 2 ^ n → j ≠ i → r.get j = 0 ∧ probability_of_index r j = .ok 0 := by
  have hlen : (psi.amp.map (fun _ => (0 : ℂ))).length = 2 ^ n := by
    rw [List.length_map, hdim]
  have hget : ∀ j, j < 2 ^ n →
      ((psi.amp.map (fun _ => (0 : ℂ))).set i 1).getD j 0 = if j = i then 1 else 0 := by
    intro j hj
    rw [getD_set_eq _ _ _ _ _ (by rw [hlen]; exact hi)]
    by_cases hji : j = i
    · rw [if_pos hji, if_pos hji]
    · rw [if_neg hji, if_neg hji, getD_map_const _ _ _ _ (by rw [hdim]; exact hj)]
  refine ⟨{ psi with amp := (psi.amp.map (fun _ => (0 : ℂ))).set i 1 }, ?_, hn, ?_, ?_, ?_, ?_⟩
  · simp only [initialize_basis, set_zero, QuantumState.dim]
    rw [if_neg (by omega)]
  · rw [List.length_set, hlen]
  · simp only [QuantumState.get]
    rw [hget i hi, if_pos rfl]
  · simp only [probability_of_index]
    rw [if_pos (by rw [List.length_set, hlen]; exact hi), hget i hi, if_pos rfl]
    simp
  · intro j hj hji
    constructor
    · simp only [QuantumState.get]
      rw [hget j hj, if_neg hji]
    · simp only [probability_of_index]
      rw [if_pos (by rw [List.length_set, hlen]; exact hj), hget j hj, if_neg hji]
      simp

theorem C13_initialize_basis_round_trip_witness :
    ∃ r, initialize_basis (⟨1, [3, 4]⟩ : QuantumState ℂ) 1 = .ok r ∧ r.num_qubits = 1 ∧
      r.amp.length = 2 ^ 1 ∧ r.get 1 = 1 ∧ probability_of_index r 1 = .ok 1 ∧
      ∀ j, j < 2 ^ 1 → j ≠ 1 → r.get j = 0 ∧ probability_of_index r j = .ok 0 :=
  C13_initialize_basis_round_trip 1 1 ⟨1, [3, 4]⟩ rfl rfl (by decide)

theorem uniform_get (n i : Nat) (hi : i < 2 ^ n) :
    (initialize_uniform (QuantumState.zeros n)).get i =
      ((1 / Real.sqrt ((2 : ℝ) ^ n) : ℝ) : ℂ) := by
  rw [uniform_state]
  simp only [QuantumState.get, List.getD_eq_getElem?_getD]
  rw [List.getElem?_replicate, if_pos hi]
  rfl

theorem uniform_normSq (n : Nat) :
    (1 / Real.sqrt ((2 : ℝ) ^ n)) * (1 / Real.sqrt ((2 : ℝ) ^ n)) = 1 / (2 : ℝ) ^ n := by
  have hpos : (0 : ℝ) ≤ (2 : ℝ) ^ n := by positivity
  rw [div_mul_div_comm, Real.mul_self_sqrt hpos, one_mul]

/-- The uniform superposition over `2 ^ n` amplitudes: amplitudes, probabilities and
their sum. -/
theorem uniform_properties (n : Nat) :
    (initialize_uniform (QuantumState.zeros n)).num_qubits = n ∧
    (initialize_uniform (QuantumState.zeros n)).amp.length = 2 ^ n ∧
    (∀ i, i < 2 ^ n →
      (initialize_uniform (QuantumState.zeros n)).get i =
          (⟨1 / Real.sqrt ((2 : ℝ) ^ n), 0⟩ : ℂ) ∧
        probability_of_index (initialize_uniform (QuantumState.zeros n)) i =
          .ok (1 / (2 : ℝ) ^ n)) ∧
    probability_of_any (initialize_uniform (QuantumState.zeros n)) (List.range (2 ^ n)) =
      .ok 1 ∧
    total_probability (initialize_uniform (QuantumState.zeros n)) = 1 := by
  have hlen : (initialize_uniform (QuantumState.zeros n)).amp.length = 2 ^ n := by
    rw [uniform_state]; simp
  have hpos : (0 : ℝ) < (2 : ℝ) ^ n := by positivity
  have hsum : ((List.range (2 ^ n)).map
      (fun i => Complex.normSq ((initialize_uniform (QuantumState.zeros n)).get i))).sum = 1 := by
    have : (List.range (2 ^ n)).map
        (fun i => Complex.normSq ((initialize_uniform (QuantumState.zeros n)).get i)) =
        (List.range (2 ^ n)).map (fun _ => 1 / (2 : ℝ) ^ n) := by
      apply List.map_congr_left
      intro i hi
      rw [uniform_get n i (List.mem_range.1 hi), Complex.normSq_ofReal, uniform_normSq]
    rw [this, List.map_const', List.sum_replicate, List.length_range, nsmul_eq_mul]
    push_cast
    field_simp
  refine ⟨by rw [uniform_state], hlen, ?_, ?_, ?_⟩
  · intro i hi
    constructor
    · rw [uniform_get n i hi]; rfl
    · simp only [probability_of_index]
      rw [if_pos (by rw [hlen]; exact hi)]
      have := uniform_get n i hi
      simp only [QuantumState.get] at this
      rw [this]
      simp only [Complex.ofReal_re, Complex.ofReal_im, mul_zero, add_zero]
      rw [uniform_normSq]
  · rw [probability_of_any_ok _ _ (by
      intro t ht; rw [hlen]; exact List.mem_range.1 ht), hsum]
  · rw [total_probability_eq, hlen]
    have : ∀ i ∈ Finset.range (2 ^ n),
        Complex.normSq ((initialize_uniform (QuantumState.zeros n)).get i) = 1 / (2 : ℝ) ^ n := by
      intro i hi
      rw [uniform_get n i (Finset.mem_range.1 hi), Complex.normSq_ofReal, uniform_normSq]
    rw [Finset.sum_congr rfl this, Finset.sum_const, Finset.card_range, nsmul_eq_mul]
    push_cast
    field_simp

/-- C14 (as the code has it): on a machine that holds `n` qubits, constructing a
state of `n` qubits returns normally, and after `initialize_uniform()` the state has
`2 ^ n` amplitudes, each equal to `(1/sqrt(2^n), 0)`; `probability_of_index(i)` is
`1 / 2^n` for every `i < 2 ^ n`, and the probabilities of all `2 ^ n` indices sum
to 1. -/
theorem C14_uniform_superposition (m : Machine) (n : Nat) (hm : m.holds n) :
    ∃ psi : QuantumState ℂ, QuantumState.new m n = .ok psi ∧
      psi.num_qubits = n ∧ psi.dim = 2 ^ n ∧
      (initialize_uniform psi).num_qubits = n ∧
      (initialize_uniform psi).amp.length = 2 ^ n ∧
      (∀ i, i < 2 ^ n →
        (initialize_uniform psi).get i = (⟨1 / Real.sqrt ((2 : ℝ) ^ n), 0⟩ : ℂ) ∧
          probability_of_index (initialize_uniform psi) i = .ok (1 / (2 : ℝ) ^ n)) ∧
      probability_of_any (initialize_uniform psi) (List.range (2 ^ n)) = .ok 1 ∧
      total_probability (initialize_uniform psi) = 1 := by
  obtain ⟨h1, h2, h3, h4, h5⟩ := uniform_properties n
  exact ⟨QuantumState.zeros n, new_ok m n hm, rfl, by simp [QuantumState.dim, QuantumState.zeros],
    h1, h2, h3, h4, h5⟩

theorem C14_uniform_superposition_witness :
    ∃ psi : QuantumState ℂ, QuantumState.new lp64 4 = .ok psi ∧
      psi.num_qubits = 4 ∧ psi.dim = 2 ^ 4 ∧
      (initialize_uniform psi).num_qubits = 4 ∧
      (initialize_uniform psi).amp.length = 2 ^ 4 ∧
      (∀ i, i < 2 ^ 4 →
        (initialize_uniform psi).get i = (⟨1 / Real.sqrt ((2 : ℝ) ^ 4), 0⟩ : ℂ) ∧
          probability_of_index (initialize_uniform psi) i = .ok (1 / (2 : ℝ) ^ 4)) ∧
      probability_of_any (initialize_uniform psi) (List.range (2 ^ 4)) = .ok 1 ∧
      total_probability (initialize_uniform psi) = 1 :=
  C14_uniform_superposition lp64 4 (lp64_holds 4 (by decide))

/-- C14, counterexample: constructing a state of 63 qubits does not return, the
vector constructor throws `std::length_error`; there are no `2 ^ 63` amplitudes to
make uniform. -/
theorem C14_counterexample :
    (QuantumState.new lp64 63 : Except Fault (QuantumState ℂ)) = .error .length_error ∧
    ¬ ∃ psi : QuantumState ℂ, QuantumState.new lp64 63 = .ok psi := by
  refine ⟨new_length_error lp64, ?_⟩
  rintro ⟨psi, h⟩
  rw [new_length_error] at h
  exact absurd h (by simp)

/-! ## Multi-target oracle: frame and partial failure -/

theorem state_ext (r s : QuantumState ℂ) (hn : r.num_qubits = s.num_qubits)
    (hlen : r.amp.length = s.amp.length) (hget : ∀ i, i < r.amp.length → r.get i = s.get i) :
    r = s := by
  obtain ⟨rn, ra⟩ := r
  obtain ⟨sn, sa⟩ := s
  simp only at hn hlen
  have : ra = sa := list_ext_getD 0 ra sa hlen hget
  rw [hn, this]

/-- C15: for pairwise distinct targets inside the vector the multi-target oracle
returns normally, negates the amplitude at every target and leaves every other
amplitude as it was; every reordering of the target list gives the same state. -/
theorem C15_multi_oracle_frame (psi : QuantumState ℂ) (targets : List Nat)
    (hnd : targets.Nodup) (hin : ∀ t, t ∈ targets → t < psi.dim) :
    ∃ r, MultiIndexPhaseOracle.apply targets psi = .ok r ∧
      r.num_qubits = psi.num_qubits ∧ r.dim = psi.dim ∧
      (∀ i, r.get i = if i ∈ targets then -psi.get i else psi.get i) ∧
      ∀ reordered : List Nat, reordered.Perm targets →
        MultiIndexPhaseOracle.apply reordered psi = .ok r := by
  obtain ⟨r, hr, hrn, hrl, hpt⟩ := oracle_spec targets hnd psi hin
  refine ⟨r, hr, hrn, hrl, hpt, ?_⟩
  intro reordered hperm
  obtain ⟨r2, hr2, hrn2, hrl2, hpt2⟩ := oracle_spec reordered (hperm.nodup_iff.2 hnd) psi
    (fun t ht => hin t (hperm.mem_iff.1 ht))
  rw [hr2]
  congr 1
  apply state_ext r2 r (by rw [hrn2, hrn]) (by rw [hrl2, hrl])
  intro i _
  rw [hpt2 i, hpt i]
  by_cases him : i ∈ targets
  · rw [if_pos him, if_pos (hperm.mem_iff.2 him)]
  · rw [if_neg him, if_neg (fun h => him (hperm.mem_iff.1 h))]

theorem C15_multi_oracle_frame_witness :
    ∃ r, MultiIndexPhaseOracle.apply [2, 0] (⟨2, [1, 2, 3, 4]⟩ : QuantumState ℂ) = .ok r ∧
      r.num_qubits = (⟨2, [1, 2, 3, 4]⟩ : QuantumState ℂ).num_qubits ∧
      r.dim = (⟨2, [1, 2, 3, 4]⟩ : QuantumState ℂ).dim ∧
      (∀ i, r.get i = if i ∈ [2, 0] then -(⟨2, [1, 2, 3, 4]⟩ : QuantumState ℂ).get i
        else (⟨2, [1, 2, 3, 4]⟩ : QuantumState ℂ).get i) ∧
      ∀ reordered : List Nat, reordered.Perm [2, 0] →
        MultiIndexPhaseOracle.apply reordered (⟨2, [1, 2, 3, 4]⟩ : QuantumState ℂ) = .ok r :=
  C15_multi_oracle_frame ⟨2, [1, 2, 3, 4]⟩ [2, 0] (by decide) (by decide)

theorem forEach_append {α σ : Type} (body : α → σ → Outcome σ) (xs ys : List α) (s : σ) :
    forEach body (xs ++ ys) s = (forEach body xs s).andThen (forEach body ys) := by
  induction xs generalizing s with
  | nil => rfl
  | cons x xs ih =>
    simp only [List.cons_append, forEach]
    cases body x s with
    | ok t => simp only [Outcome.andThen]; exact ih t
    | thrown e t => rfl

/-- Targets inside the vector, distinct or not: the amplitude at `i` is negated once
per occurrence of `i` in the list. -/
theorem oracle_count (targets : List Nat) (psi : QuantumState ℂ)
    (hin : ∀ t, t ∈ targets → t < psi.amp.length) :
    ∃ r, MultiIndexPhaseOracle.apply targets psi = .ok r ∧
      r.num_qubits = psi.num_qubits ∧ r.amp.length = psi.amp.length ∧
      ∀ i, r.get i = (-1) ^ (targets.count i) * psi.get i := by
  induction targets generalizing psi with
  | nil => exact ⟨psi, rfl, rfl, rfl, fun i => by simp⟩
  | cons t ts ih =>
    have ht : t < psi.amp.length := hin t (List.mem_cons_self t ts)
    obtain ⟨r, hr, hrn, hrl, hpt⟩ := ih
      { psi with amp := psi.amp.set t (-psi.amp.getD t 0) }
      (fun x hx => by simpa using hin x (List.mem_cons_of_mem t hx))
    refine ⟨r, ?_, hrn, by simpa using hrl, ?_⟩
    · simp only [MultiIndexPhaseOracle.apply, forEach]
      rw [if_neg (by simp only [QuantumState.dim]; omega)]
      exact hr
    · intro i
      rw [hpt i]
      simp only [QuantumState.get]
      rw [getD_set_eq _ _ _ _ _ ht, List.count_cons]
      by_cases hit : i = t
      · subst hit
        simp [pow_succ]
      · have : ¬ (t == i) = true := by simpa using fun h => hit h.symm
        simp [hit, this]

theorem first_out_of_range (N : Nat) (targets : List Nat)
    (h : ∃ t, t ∈ targets ∧ N ≤ t) :
    ∃ pre t post, targets = pre ++ t :: post ∧ (∀ x, x ∈ pre → x < N) ∧ N ≤ t := by
  induction targets with
  | nil => obtain ⟨t, ht, _⟩ := h; simp at ht
  | cons x xs ih =>
    by_cases hx : N ≤ x
    · exact ⟨[], x, xs, rfl, fun y hy => by simp at hy, hx⟩
    · obtain ⟨t, ht, htN⟩ := h
      have htx : t ∈ xs := by
        rcases List.mem_cons.1 ht with e | e
        · subst e; exact absurd htN hx
        · exact e
      obtain ⟨pre, u, post, he, hpre, hu⟩ := ih ⟨t, htx, htN⟩
      refine ⟨x :: pre, u, post, by rw [he]; rfl, ?_, hu⟩
      intro y hy
      rcases List.mem_cons.1 hy with e | e
      · subst e; omega
      · exact hpre y e

/-- Failure of the multi-target oracle at the first target outside the vector. -/
theorem oracle_partial_failure (psi : QuantumState ℂ) (targets : List Nat)
    (h : ∃ t, t ∈ targets ∧ psi.dim ≤ t) :
    ∃ pre t post, targets = pre ++ t :: post ∧ (∀ x, x ∈ pre → x < psi.dim) ∧
      psi.dim ≤ t ∧
      ∃ s, MultiIndexPhaseOracle.apply targets psi = .thrown .out_of_range s ∧
        MultiIndexPhaseOracle.apply pre psi = .ok s ∧
        s.num_qubits = psi.num_qubits ∧ s.dim = psi.dim ∧
        (∀ i, s.get i = (-1) ^ (pre.count i) * psi.get i) ∧
        total_probability s = total_probability psi ∧
        (total_probability psi = 1 → total_probability s = 1) := by
  obtain ⟨pre, t, post, he, hpre, ht⟩ := first_out_of_range psi.dim targets h
  refine ⟨pre, t, post, he, hpre, ht, ?_⟩
  obtain ⟨s, hs, hsn, hsl, hpt⟩ := oracle_count pre psi hpre
  obtain ⟨s2, hs2, -, -, htot⟩ := multi_oracle_total pre psi hpre
  rw [hs] at hs2
  injection hs2 with hss
  subst hss
  refine ⟨s, ?_, hs, hsn, hsl, hpt, htot, fun h1 => by rw [htot, h1]⟩
  rw [he]
  simp only [MultiIndexPhaseOracle.apply] at hs ⊢
  rw [forEach_append, hs]
  simp only [Outcome.andThen, forEach]
  rw [if_pos (by simp only [QuantumState.dim] at ht ⊢; omega)]

/-- C16: when the target list holds an index outside the vector, the list splits at
the first such position into `pre ++ t :: post`; the multi-target oracle then ends
in `out_of_range`, leaving the state that the oracle over `pre` alone produces: each
amplitude negated once per occurrence of its index in `pre`, everything else as it
was, and the same sum of squared magnitudes as before the call. -/
theorem C16_multi_oracle_partial_failure (psi : QuantumState ℂ) (targets : List Nat)
    (h : ∃ t, t ∈ targets ∧ psi.dim ≤ t) :
    ∃ pre t post, targets = pre ++ t :: post ∧ (∀ x, x ∈ pre → x < psi.dim) ∧
      psi.dim ≤ t ∧
      ∃ s, MultiIndexPhaseOracle.apply targets psi = .thrown .out_of_range s ∧
        MultiIndexPhaseOracle.apply pre psi = .ok s ∧
        s.num_qubits = psi.num_qubits ∧ s.dim = psi.dim ∧
        (∀ i, s.get i = (-1) ^ (pre.count i) * psi.get i) ∧
        total_probability s = total_probability psi ∧
        (total_probability psi = 1 → total_probability s = 1) :=
  oracle_partial_failure psi targets h

theorem C16_multi_oracle_partial_failure_witness :
    ∃ pre t post, [1, 1, 0, 7, 2] = pre ++ t :: post ∧
      (∀ x, x ∈ pre → x < (⟨2, [1, 2, 3, 4]⟩ : QuantumState ℂ).dim) ∧
      (⟨2, [1, 2, 3, 4]⟩ : QuantumState ℂ).dim ≤ t ∧
      ∃ s, MultiIndexPhaseOracle.apply [1, 1, 0, 7, 2] (⟨2, [1, 2, 3, 4]⟩ : QuantumState ℂ) =
          .thrown .out_of_range s ∧
        MultiIndexPhaseOracle.apply pre (⟨2, [1, 2, 3, 4]⟩ : QuantumState ℂ) = .ok s ∧
        s.num_qubits = (⟨2, [1, 2, 3, 4]⟩ : QuantumState ℂ).num_qubits ∧
        s.dim = (⟨2, [1, 2, 3, 4]⟩ : QuantumState ℂ).dim ∧
        (∀ i, s.get i = (-1) ^ (pre.count i) * (⟨2, [1, 2, 3, 4]⟩ : QuantumState ℂ).get i) ∧
        total_probability s = total_probability (⟨2, [1, 2, 3, 4]⟩ : QuantumState ℂ) ∧
        (total_probability (⟨2, [1, 2, 3, 4]⟩ : QuantumState ℂ) = 1 →
          total_probability s = 1) :=
  C16_multi_oracle_partial_failure ⟨2, [1, 2, 3, 4]⟩ [1, 1, 0, 7, 2]
    ⟨7, by decide, by decide⟩

/-! ## Edge cases of the driver -/

/-- The diffuser leaves the uniform superposition as it is. -/
theorem diffuser_uniform (n : Nat) :
    apply_diffuser (initialize_uniform (QuantumState.zeros n)) =
      initialize_uniform (QuantumState.zeros n) := by
  have hlen : (initialize_uniform (QuantumState.zeros n)).amp.length = 2 ^ n := by
    rw [uniform_state]; simp
  apply state_ext
  · rfl
  · rw [diffuser_amp, List.length_map]
  · intro i hi
    rw [diffuser_amp, List.length_map, hlen] at hi
    rw [diffuser_get _ i (by rw [hlen]; exact hi), uniform_get n i hi, hlen]
    have hsum : (initialize_uniform (QuantumState.zeros n)).amp.sum =
        ((2 ^ n : ℕ) : ℂ) * ((1 / Real.sqrt ((2 : ℝ) ^ n) : ℝ) : ℂ) := by
      rw [uniform_state]
      simp only [List.sum_replicate, nsmul_eq_mul]
    rw [hsum]
    have hne : ((2 ^ n : ℕ) : ℂ) ≠ 0 := by
      exact_mod_cast (Nat.two_pow_pos n).ne'
    field_simp
    ring

theorem iterations_empty (n : Nat) :
    Grover.iterations (2 ^ n) (max 1 ([] : List Nat).length) =
      Nat.floor (Real.pi / 4 * Real.sqrt ((2 : ℝ) ^ n / 1)) := by
  simp only [Grover.iterations, List.length_nil]
  norm_num

/-- C18 (as the code has it): on a machine that holds `n` qubits, `Grover::run` with
an empty marked list does not fail: it counts `floor((π/4)·√(2^n))` iterations
(`M = 1`), each round leaves the uniform superposition unchanged, and the returned
`success_probability` is 0. -/
theorem C18_empty_marked_list (m : Machine) (n : Nat) (hm : m.holds n) :
    (QuantumState.new m n : Except Fault (QuantumState ℂ)) = .ok (QuantumState.zeros n) ∧
    max 1 ([] : List Nat).length = 1 ∧
    grover_round [] (initialize_uniform (QuantumState.zeros n)) =
      .ok (initialize_uniform (QuantumState.zeros n)) ∧
    (∀ j : Nat, grover_rounds [] j (initialize_uniform (QuantumState.zeros n)) =
      .ok (initialize_uniform (QuantumState.zeros n))) ∧
    probability_of_any (initialize_uniform (QuantumState.zeros n)) [] = .ok 0 ∧
    Grover.run m ⟨n, []⟩ =
      .ok ⟨Nat.floor (Real.pi / 4 * Real.sqrt ((2 : ℝ) ^ n / 1)), 0⟩ := by
  have hround : grover_round [] (initialize_uniform (QuantumState.zeros n)) =
      .ok (initialize_uniform (QuantumState.zeros n)) := by
    simp only [grover_round, MultiIndexPhaseOracle.apply, forEach, Outcome.andThen]
    rw [diffuser_uniform]
  have hrounds : ∀ j : Nat, grover_rounds [] j (initialize_uniform (QuantumState.zeros n)) =
      .ok (initialize_uniform (QuantumState.zeros n)) := by
    intro j
    induction j with
    | zero => rfl
    | succ j ih => rw [rounds_succ, ih]; exact hround
  refine ⟨new_ok m n hm, rfl, hround, hrounds, rfl, ?_⟩
  have := run_eq_of_rounds m ⟨n, []⟩ hm (initialize_uniform (QuantumState.zeros n)) 0
    (hrounds _) rfl
  rw [this, iterations_empty]

theorem C18_empty_marked_list_witness :
    (QuantumState.new lp64 5 : Except Fault (QuantumState ℂ)) = .ok (QuantumState.zeros 5) ∧
    max 1 ([] : List Nat).length = 1 ∧
    grover_round [] (initialize_uniform (QuantumState.zeros 5)) =
      .ok (initialize_uniform (QuantumState.zeros 5)) ∧
    (∀ j : Nat, grover_rounds [] j (initialize_uniform (QuantumState.zeros 5)) =
      .ok (initialize_uniform (QuantumState.zeros 5))) ∧
    probability_of_any (initialize_uniform (QuantumState.zeros 5)) [] = .ok 0 ∧
    Grover.run lp64 ⟨5, []⟩ =
      .ok ⟨Nat.floor (Real.pi / 4 * Real.sqrt ((2 : ℝ) ^ 5 / 1)), 0⟩ :=
  C18_empty_marked_list lp64 5 (lp64_holds 5 (by decide))

/-- C18, counterexample: with `num_qubits = 63` and an empty marked list
`Grover::run` does fail: the constructor throws `std::length_error`. -/
theorem C18_counterexample :
    Grover.run lp64 ⟨63, []⟩ = .error .length_error ∧
    ¬ ∃ res, Grover.run lp64 ⟨63, []⟩ = .ok res := by
  refine ⟨run_length_error lp64 [], ?_⟩
  rintro ⟨res, h⟩
  rw [run_length_error] at h
  exact absurd h (by simp)

theorem floor_quarter_pi : Nat.floor (Real.pi / 4 * Real.sqrt ((1 : ℝ) / 1)) = 0 := by
  rw [Nat.floor_eq_zero, div_one, Real.sqrt_one, mul_one]
  have := Real.pi_lt_four
  linarith

theorem iterations_zero_qubits_one_marked (t : Nat) :
    Grover.iterations (2 ^ 0) (max 1 [t].length) = 0 := by
  rw [iterations_eq 0 [t] (by simp)]
  simp only [pow_zero, List.length_singleton, Nat.cast_one]
  exact floor_quarter_pi

/-- C19, failing input: with `num_qubits = 0` and `marked = [1]`, on a machine that
holds the one amplitude, no iteration runs, so no oracle check is made, and
`probability_of_any` reads `amp[1]` in a vector of size 1. -/
theorem C19_unchecked_read (m : Machine) (hm : m.holds 0) :
    Grover.iterations (2 ^ 0) (max 1 ([1] : List Nat).length) = 0 ∧
    (∃ psi : QuantumState ℂ, QuantumState.new m 0 = .ok psi ∧
      (initialize_uniform psi).dim = 1) ∧
    Grover.run m ⟨0, [1]⟩ = .error .out_of_bounds := by
  have hk := iterations_zero_qubits_one_marked 1
  have hlen : (initialize_uniform (QuantumState.zeros 0)).amp.length = 1 := by
    rw [uniform_state]; simp
  refine ⟨hk, ⟨QuantumState.zeros 0, new_ok m 0 hm, hlen⟩, ?_⟩
  simp only [Grover.run, pow2_ok 0 (by decide), new_ok m 0 hm, grover_loop_eq_rounds, hk,
    grover_rounds, probability_of_any, probability_sum, probability_of_index]
  rw [if_neg (by rw [hlen]; decide)]

theorem C19_unchecked_read_witness :
    Grover.iterations (2 ^ 0) (max 1 ([1] : List Nat).length) = 0 ∧
    (∃ psi : QuantumState ℂ, QuantumState.new lp64 0 = .ok psi ∧
      (initialize_uniform psi).dim = 1) ∧
    Grover.run lp64 ⟨0, [1]⟩ = .error .out_of_bounds :=
  C19_unchecked_read lp64 (lp64_holds 0 (by decide))

/-- Where an iteration runs, the oracle check does catch a marked index outside the
vector: the run ends in `out_of_range`. -/
theorem run_out_of_range (m : Machine) (cfg : GroverConfig) (hm : m.holds cfg.num_qubits)
    (h : ∃ t, t ∈ cfg.marked ∧ 2 ^ cfg.num_qubits ≤ t)
    (hk : 0 < Grover.iterations (2 ^ cfg.num_qubits) (max 1 cfg.marked.length)) :
    Grover.run m cfg = .error .out_of_range := by
  have hlen : (initialize_uniform (QuantumState.zeros cfg.num_qubits)).dim =
      2 ^ cfg.num_qubits := by
    rw [uniform_state]; simp [QuantumState.dim]
  obtain ⟨pre, t, post, he, hpre, ht, s, hs, -⟩ :=
    oracle_partial_failure (initialize_uniform (QuantumState.zeros cfg.num_qubits)) cfg.marked
      (by rw [hlen]; exact h)
  obtain ⟨k, hk2⟩ : ∃ k, Grover.iterations (2 ^ cfg.num_qubits) (max 1 cfg.marked.length) =
      k + 1 := ⟨Grover.iterations (2 ^ cfg.num_qubits) (max 1 cfg.marked.length) - 1, by omega⟩
  have hn := holds_lt m cfg.num_qubits hm
  simp only [Grover.run, pow2_ok cfg.num_qubits (by omega), new_ok m cfg.num_qubits hm,
    grover_loop_eq_rounds, hk2, rounds_succ_front, grover_round, hs, Outcome.andThen]

/-- C20: `probability_of_any` adds one term per list entry, so a marked list with a
repeated in-range index can give a `success_probability` above 1: on
`num_qubits = 0`, `marked = [0, 0]`, on a machine that holds the one amplitude, the
run makes 0 iterations and returns 2. -/
theorem C20_repeated_index_counted_twice (m : Machine) (hm : m.holds 0) :
    (∀ t, t ∈ [0, 0] → t < 2 ^ 0) ∧ ¬ ([0, 0] : List Nat).Nodup ∧
    Grover.run m ⟨0, [0, 0]⟩ = .ok ⟨0, 2⟩ ∧
    ∃ cfg : GroverConfig, (∀ t, t ∈ cfg.marked → t < 2 ^ cfg.num_qubits) ∧
      ¬ cfg.marked.Nodup ∧
      ∃ res, Grover.run m cfg = .ok res ∧ 1 < res.success_probability := by
  have hk : Grover.iterations (2 ^ 0) (max 1 ([0, 0] : List Nat).length) = 0 := by
    rw [iterations_eq 0 [0, 0] (by simp), Nat.floor_eq_zero]
    have h1 : Real.sqrt ((2 : ℝ) ^ 0 / (([0, 0] : List Nat).length : ℝ)) ≤ 1 := by
      rw [Real.sqrt_le_one]
      norm_num
    have h0 := Real.sqrt_nonneg ((2 : ℝ) ^ 0 / (([0, 0] : List Nat).length : ℝ))
    have := Real.pi_lt_four
    have hp := Real.pi_pos
    nlinarith
  have hget : (initialize_uniform (QuantumState.zeros 0)).get 0 = 1 := by
    rw [uniform_get 0 0 (by decide)]
    simp
  have hlen : (initialize_uniform (QuantumState.zeros 0)).amp.length = 1 := by
    rw [uniform_state]; simp
  have hp : probability_of_any (initialize_uniform (QuantumState.zeros 0)) [0, 0] = .ok 2 := by
    rw [probability_of_any_ok _ _ (by intro t ht; rw [hlen]; simp at ht; omega)]
    simp only [List.map_cons, List.map_nil, List.sum_cons, List.sum_nil, hget]
    norm_num
  have hrun : Grover.run m ⟨0, [0, 0]⟩ = .ok ⟨0, 2⟩ := by
    have := run_eq_of_rounds m ⟨0, [0, 0]⟩ hm (initialize_uniform (QuantumState.zeros 0)) 2
      (by rw [hk]; rfl) hp
    rw [this, hk]
  refine ⟨by decide, by decide, hrun, ⟨0, [0, 0]⟩, by decide, by decide, _, hrun, ?_⟩
  norm_num

theorem C20_repeated_index_counted_twice_witness :
    (∀ t, t ∈ [0, 0] → t < 2 ^ 0) ∧ ¬ ([0, 0] : List Nat).Nodup ∧
    Grover.run lp64 ⟨0, [0, 0]⟩ = .ok ⟨0, 2⟩ ∧
    ∃ cfg : GroverConfig, (∀ t, t ∈ cfg.marked → t < 2 ^ cfg.num_qubits) ∧
      ¬ cfg.marked.Nodup ∧
      ∃ res, Grover.run lp64 cfg = .ok res ∧ 1 < res.success_probability :=
  C20_repeated_index_counted_twice lp64 (lp64_holds 0 (by decide))

/-! ## Diffuser as a Hadamard sandwich -/

theorem hadamard_fn_twice (s : ℂ) (hs : s * s = 1 / 2) (q : Nat) (f : Nat → ℂ) :
    hadamard_fn s q (hadamard_fn s q f) = f := by
  funext i
  simp only [hadamard_fn, xor_pow_xor_pow, testBit_xor_pow_self]
  cases hb : i.testBit q
  · simp only [Bool.not_false, if_true, Bool.false_eq_true, if_false]
    linear_combination (2 * f i) * hs
  · simp only [Bool.not_true, if_true, Bool.false_eq_true, if_false]
    linear_combination (2 * f i) * hs

theorem hadamard_fn_comm (s : ℂ) (p q : Nat) (hpq : p ≠ q) (f : Nat → ℂ) :
    hadamard_fn s p (hadamard_fn s q f) = hadamard_fn s q (hadamard_fn s p f) := by
  funext i
  simp only [hadamard_fn, testBit_xor_pow_ne i q p (Ne.symm hpq),
    testBit_xor_pow_ne i p q hpq]
  have hx : (i ^^^ 2 ^ p) ^^^ 2 ^ q = (i ^^^ 2 ^ q) ^^^ 2 ^ p := by
    rw [Nat.xor_assoc, Nat.xor_comm (2 ^ p), ← Nat.xor_assoc]
  rw [hx]
  ring

theorem hadamard_fn_all_comm (s : ℂ) (k q : Nat) (hkq : k ≤ q) (f : Nat → ℂ) :
    hadamard_fn_all s k (hadamard_fn s q f) = hadamard_fn s q (hadamard_fn_all s k f) := by
  induction k with
  | zero => rfl
  | succ k ih =>
    simp only [hadamard_fn_all]
    rw [ih (by omega), hadamard_fn_comm s k q (by omega)]

theorem hadamard_fn_all_twice (s : ℂ) (hs : s * s = 1 / 2) (k : Nat) (f : Nat → ℂ) :
    hadamard_fn_all s k (hadamard_fn_all s k f) = f := by
  induction k generalizing f with
  | zero => rfl
  | succ k ih =>
    simp only [hadamard_fn_all]
    rw [hadamard_fn_all_comm s k k (Nat.le_refl k), hadamard_fn_twice s hs, ih]

theorem hadamard_fn_linear (s : ℂ) (q : Nat) (c : ℂ) (e g : Nat → ℂ) :
    hadamard_fn s q (fun i => c * e i - g i) =
      fun i => c * hadamard_fn s q e i - hadamard_fn s q g i := by
  funext i
  simp only [hadamard_fn]
  ring

theorem hadamard_fn_all_linear (s : ℂ) (k : Nat) (c : ℂ) (e g : Nat → ℂ) :
    hadamard_fn_all s k (fun i => c * e i - g i) =
      fun i => c * hadamard_fn_all s k e i - hadamard_fn_all s k g i := by
  induction k with
  | zero => rfl
  | succ k ih =>
    simp only [hadamard_fn_all]
    rw [ih, hadamard_fn_linear]

/-- Value of the first `k` Hadamards at an index whose low `k` bits are clear. -/
theorem hadamard_fn_all_block (s : ℂ) (k : Nat) (f : Nat → ℂ) :
    ∀ i, 2 ^ k ∣ i →
      hadamard_fn_all s k f i = s ^ k * ∑ j in Finset.range (2 ^ k), f (i + j) := by
  induction k with
  | zero =>
    intro i _
    simp [hadamard_fn_all]
  | succ k ih =>
    intro i hi
    have hpow : 2 ^ (k + 1) = 2 * 2 ^ k := by rw [pow_succ]; ring
    have hk : 2 ^ k ∣ i := Dvd.dvd.trans ⟨2, by rw [hpow]; ring⟩ hi
    have hb : i.testBit k = false := by
      rw [← mod_lt_iff_testBit, ← hpow, Nat.mod_eq_zero_of_dvd hi]
      exact Nat.two_pow_pos k
    have hk2 : 2 ^ k ∣ i + 2 ^ k := Dvd.dvd.add hk (Nat.dvd_refl _)
    simp only [hadamard_fn_all, hadamard_fn]
    rw [← add_pow_eq_xor i k hb, hb, ih i hk, ih (i + 2 ^ k) hk2]
    simp only [Bool.false_eq_true, if_false, one_mul]
    rw [hpow, two_mul, Finset.sum_range_add, pow_succ]
    have : ∀ j, f (i + (2 ^ k + j)) = f (i + 2 ^ k + j) := fun j => by rw [Nat.add_assoc]
    simp only [this]
    ring

theorem testBit_of_ge_lt (i k : Nat) (h1 : 2 ^ k ≤ i) (h2 : i < 2 ^ (k + 1)) :
    i.testBit k = true := by
  have hpow : 2 ^ (k + 1) = 2 * 2 ^ k := by rw [pow_succ]; ring
  have h3 : (i - 2 ^ k).testBit k = false := Nat.testBit_lt_two_pow (by omega)
  have := testBit_add_pow (i - 2 ^ k) k
  rw [Nat.sub_add_cancel h1, h3] at this
  exact this

theorem xor_pow_ge (i k m : Nat) (hk : k < m) (h : 2 ^ m ≤ i) : 2 ^ m ≤ i ^^^ 2 ^ k := by
  by_contra hlt
  have := xor_pow_lt_two_pow (i ^^^ 2 ^ k) k m (by omega) hk
  rw [xor_pow_xor_pow] at this
  omega

/-- The first `k` Hadamards send the basis function of index 0 to the constant `s ^ k`
on the first `2 ^ k` indices. -/
theorem hadamard_fn_all_zero (s : ℂ) (k : Nat) :
    ∀ i, hadamard_fn_all s k (fun j => if j = 0 then 1 else 0) i =
      if i < 2 ^ k then s ^ k else 0 := by
  induction k with
  | zero =>
    intro i
    simp [hadamard_fn_all]
  | succ k ih =>
    intro i
    have hpow : 2 ^ (k + 1) = 2 * 2 ^ k := by rw [pow_succ]; ring
    simp only [hadamard_fn_all, hadamard_fn]
    rw [ih i, ih (i ^^^ 2 ^ k)]
    by_cases h1 : i < 2 ^ k
    · have hb : i.testBit k = false := Nat.testBit_lt_two_pow h1
      have hx := add_pow_eq_xor i k hb
      have e1 : ¬ (i ^^^ 2 ^ k < 2 ^ k) := by omega
      have e2 : i < 2 ^ (k + 1) := by omega
      rw [if_pos h1, if_neg e1, if_pos e2, hb]
      simp only [Bool.false_eq_true, if_false]
      rw [pow_succ]; ring
    · by_cases h2 : i < 2 ^ (k + 1)
      · have hb : i.testBit k = true := testBit_of_ge_lt i k (by omega) h2
        have hx := sub_pow_eq_xor i k hb
        have e1 : i ^^^ 2 ^ k < 2 ^ k := by omega
        rw [if_neg h1, if_pos e1, if_pos h2, hb]
        simp only [if_true]
        rw [pow_succ]; ring
      · have hx := xor_pow_ge i k (k + 1) (by omega) (by omega)
        have e1 : ¬ (i ^^^ 2 ^ k < 2 ^ k) := by omega
        rw [if_neg h1, if_neg e1, if_neg h2]
        ring


theorem get_beyond (psi : QuantumState ℂ) (i : Nat) (h : psi.amp.length ≤ i) :
    psi.get i = 0 := by
  simp [QuantumState.get, List.getD_eq_getElem?_getD, List.getElem?_eq_none h]

/-- `apply_hadamard(q)` on a state of `2 ^ n` amplitudes, read on index functions. -/
theorem hadamard_get (n q : Nat) (psi : QuantumState ℂ) (hn : psi.num_qubits = n)
    (hdim : psi.amp.length = 2 ^ n) (hq : q < n) :
    ∃ r, apply_hadamard psi q = .ok r ∧ r.num_qubits = n ∧ r.amp.length = 2 ^ n ∧
      r.get = hadamard_fn ((1 / Real.sqrt 2 : ℝ) : ℂ) q psi.get := by
  obtain ⟨r, hr, hrn, hrl, hpt⟩ := gate_spec n q
    !![((1 / Real.sqrt 2 : ℝ) : ℂ), ((1 / Real.sqrt 2 : ℝ) : ℂ);
      ((1 / Real.sqrt 2 : ℝ) : ℂ), ((-(1 / Real.sqrt 2) : ℝ) : ℂ)] psi hn hdim hq
  refine ⟨r, hr, hrn, hrl, ?_⟩
  funext i
  simp only [hadamard_fn]
  by_cases hi : i < 2 ^ n
  · rw [hpt i hi]
    simp only [Matrix.of_apply, Matrix.cons_val_zero, Matrix.cons_val_one, Matrix.head_cons]
    by_cases hb : i.testBit q = true
    · rw [if_pos hb, if_pos hb, sub_pow_eq_xor i q hb]
      push_cast
      ring
    · have hb1 : i.testBit q = false := by simpa using hb
      rw [if_neg hb, if_neg hb, add_pow_eq_xor i q hb1]
      ring
  · have h1 : 2 ^ n ≤ i ^^^ 2 ^ q := xor_pow_ge i q n hq (by omega)
    rw [get_beyond r i (by omega), get_beyond psi i (by omega),
      get_beyond psi _ (by rw [hdim]; exact h1)]
    ring

/-- All `n` Hadamards on a state of `2 ^ n` amplitudes, read on index functions. -/
theorem hadamard_all_get (n : Nat) (psi : QuantumState ℂ) (hn : psi.num_qubits = n)
    (hdim : psi.amp.length = 2 ^ n) :
    ∃ r, hadamard_all psi = .ok r ∧ r.num_qubits = n ∧ r.amp.length = 2 ^ n ∧
      r.get = hadamard_fn_all ((1 / Real.sqrt 2 : ℝ) : ℂ) n psi.get := by
  obtain ⟨j, r, hj, hr, hj2, hrn, hrl, hget⟩ := forLoop_rule n 1 Nat.one_pos
    (fun q s => apply_hadamard s q)
    (fun q s => q ≤ n ∧ s.num_qubits = n ∧ s.amp.length = 2 ^ n ∧
      s.get = hadamard_fn_all ((1 / Real.sqrt 2 : ℝ) : ℂ) q psi.get)
    (fun q s hq hs => by
      obtain ⟨t, ht, htn, htl, htg⟩ := hadamard_get n q s hs.2.1 hs.2.2.1 hq
      exact ⟨t, ht, by omega, htn, htl, by rw [htg, hs.2.2.2]; rfl⟩)
    n 0 psi (by omega) ⟨Nat.zero_le _, hn, hdim, rfl⟩
  have hjn : j = n := by omega
  subst hjn
  refine ⟨r, ?_, hrn, hrl, hget⟩
  simp only [hadamard_all]
  rw [hn]
  exact hr

theorem reflect_get (psi : QuantumState ℂ) :
    (reflect_about_zero psi).num_qubits = psi.num_qubits ∧
    (reflect_about_zero psi).amp.length = psi.amp.length ∧
    (reflect_about_zero psi).get =
      fun i => (2 * psi.get 0) * (if i = 0 then 1 else 0) - psi.get i := by
  obtain ⟨k, amp⟩ := psi
  cases amp with
  | nil =>
    refine ⟨rfl, rfl, ?_⟩
    funext i
    simp [reflect_about_zero, QuantumState.get]
  | cons a rest =>
    refine ⟨rfl, by simp [reflect_about_zero], ?_⟩
    funext i
    cases i with
    | zero =>
      simp [reflect_about_zero, QuantumState.get]
      ring
    | succ i =>
      show (a :: rest.map (fun x => -x)).getD (i + 1) 0 =
        2 * (a :: rest).getD 0 0 * (if i + 1 = 0 then 1 else 0) - (a :: rest).getD (i + 1) 0
      rw [List.getD_cons_succ, List.getD_cons_succ, if_neg (Nat.succ_ne_zero i), mul_zero,
        zero_sub]
      by_cases h : i < rest.length
      · rw [getD_map_lt _ rest i 0 0 h]
      · rw [List.getD_eq_default _ _ (by simpa using h),
          List.getD_eq_default _ _ (by simpa using h), neg_zero]

/-- C17: on a state of `2 ^ n` amplitudes the Hadamard sandwich (`apply_hadamard(q)`
for `q = 0..n-1`, then every amplitude except the one at index 0 negated, then
`apply_hadamard(q)` for `q = 0..n-1` again) returns normally and yields exactly the
state that `apply_diffuser()` yields. -/
theorem C17_diffuser_is_hadamard_sandwich (n : Nat) (psi : QuantumState ℂ)
    (hn : psi.num_qubits = n) (hdim : psi.amp.length = 2 ^ n) :
    hadamard_sandwich psi = .ok (apply_diffuser psi) := by
  have hs : ((1 / Real.sqrt 2 : ℝ) : ℂ) * ((1 / Real.sqrt 2 : ℝ) : ℂ) = 1 / 2 := by
    rw [← Complex.ofReal_mul, div_mul_div_comm, Real.mul_self_sqrt (by norm_num)]
    push_cast; norm_num
  obtain ⟨r1, hr1, hr1n, hr1l, hg1⟩ := hadamard_all_get n psi hn hdim
  obtain ⟨hzn, hzl, hgz⟩ := reflect_get r1
  obtain ⟨r2, hr2, hr2n, hr2l, hg2⟩ := hadamard_all_get n (reflect_about_zero r1)
    (by rw [hzn, hr1n]) (by rw [hzl, hr1l])
  simp only [hadamard_sandwich, hr1, Outcome.andThen, hr2]
  congr 1
  apply state_ext r2 (apply_diffuser psi) (by rw [hr2n]; exact hn.symm)
    (by rw [hr2l, diffuser_amp, List.length_map, hdim])
  intro i hi
  rw [hr2l] at hi
  rw [hg2, hgz, hadamard_fn_all_linear, hg1, hadamard_fn_all_twice _ hs]
  beta_reduce
  rw [hadamard_fn_all_zero, if_pos hi, hadamard_fn_all_block _ n psi.get 0 (Nat.dvd_zero _),
    diffuser_get psi i (by rw [hdim]; exact hi), hdim]
  have hsum : psi.amp.sum = ∑ j in Finset.range (2 ^ n), psi.get (0 + j) := by
    have := sum_map_eq_range (fun x : ℂ => x) 0 psi.amp
    rw [List.map_id', hdim] at this
    rw [this]
    apply Finset.sum_congr rfl
    intro j _
    rw [Nat.zero_add]
    rfl
  rw [hsum]
  have hsn : ((1 / Real.sqrt 2 : ℝ) : ℂ) ^ n * ((1 / Real.sqrt 2 : ℝ) : ℂ) ^ n =
      1 / ((2 ^ n : ℕ) : ℂ) := by
    rw [← mul_pow, hs]
    push_cast
    rw [one_div, one_div, inv_pow]
  generalize ∑ j in Finset.range (2 ^ n), psi.get (0 + j) = S
  generalize ((1 / Real.sqrt 2 : ℝ) : ℂ) ^ n = c at hsn
  linear_combination (2 * S) * hsn

theorem C17_diffuser_is_hadamard_sandwich_witness :
    hadamard_sandwich (⟨1, [1, Complex.I]⟩ : QuantumState ℂ) =
      .ok (apply_diffuser ⟨1, [1, Complex.I]⟩) :=
  C17_diffuser_is_hadamard_sandwich 1 ⟨1, [1, Complex.I]⟩ rfl rfl

/-! ## The run as iterated rounds -/

theorem amp_sum_eq (psi : QuantumState ℂ) :
    psi.amp.sum = ∑ y in Finset.range psi.amp.length, psi.get y := by
  have := sum_map_eq_range (fun x : ℂ => x) 0 psi.amp
  rw [List.map_id'] at this
  rw [this]
  rfl

/-- One more pass of a counting loop whose body ignores the counter runs the body
once more at the end. -/
theorem forLoop_succ {σ : Type} (k : Nat) (body : σ → Outcome σ) (s : σ) :
    forLoop (k + 1) 1 Nat.one_pos (fun _ => body) 0 s =
      (forLoop k 1 Nat.one_pos (fun _ => body) 0 s).andThen body := by
  have key : ∀ d i (s : σ), i + d = k →
      forLoop (k + 1) 1 Nat.one_pos (fun _ => body) i s =
        (forLoop k 1 Nat.one_pos (fun _ => body) i s).andThen body := by
    intro d
    induction d with
    | zero =>
      intro i s h
      rw [forLoop_unfold, if_pos (by omega), forLoop_unfold k, if_neg (by omega)]
      have : forLoop (k + 1) 1 Nat.one_pos (fun _ => body) (i + 1) = fun t => .ok t := by
        funext t
        rw [forLoop_unfold, if_neg (by omega)]
      rw [this]
      simp only [Outcome.andThen]
      cases body s <;> rfl
    | succ d ih =>
      intro i s h
      rw [forLoop_unfold, if_pos (by omega), forLoop_unfold k, if_pos (by omega),
        andThen_assoc]
      congr 1
      funext t
      exact ih (i + 1) t (by omega)
  exact key k 0 s (by omega)

/-- Unfolding of `Grover::run` on a machine that holds the state, once the loop and
the final query are known to return normally. -/
theorem run_eq_of_loop (m : Machine) (cfg : GroverConfig) (hm : m.holds cfg.num_qubits)
    (s : QuantumState ℂ) (p : ℝ)
    (hs : grover_loop cfg.marked
      (Grover.iterations (2 ^ cfg.num_qubits) (max 1 cfg.marked.length))
      (initialize_uniform (QuantumState.zeros cfg.num_qubits)) = .ok s)
    (hp : probability_of_any s cfg.marked = .ok p) :
    Grover.run m cfg =
      .ok ⟨Grover.iterations (2 ^ cfg.num_qubits) (max 1 cfg.marked.length), p⟩ := by
  have hn := holds_lt m cfg.num_qubits hm
  simp only [Grover.run, pow2_ok cfg.num_qubits (by omega), new_ok m cfg.num_qubits hm, hs, hp]

/-- On 3 qubits with 2 marked indices the run makes one iteration. -/
theorem floor_half_pi :
    Nat.floor (Real.pi / 4 * Real.sqrt ((2 : ℝ) ^ 3 / (([5, 6] : List Nat).length : ℝ))) = 1 := by
  have h4 : ((2 : ℝ) ^ 3 / (([5, 6] : List Nat).length : ℝ)) = 4 := by norm_num
  rw [h4, sqrt_four, Nat.floor_eq_iff (by positivity)]
  constructor
  · have := Real.pi_gt_three
    norm_num
    linarith
  · have := Real.pi_lt_four
    norm_num
    linarith

/-- C4 (as the code has it): on a machine that holds `n` qubits and on a
configuration with a non-empty marked list of `M` indices below `2 ^ n`, the state is
constructed and `Grover::run` returns `iterations = k = ⌊(π/4)·√(2^n / M)⌋`; its
`success_probability` is the sum over the marked list of the squared magnitudes in
the state `s k`, where `s 0` is the uniform superposition (every amplitude
`1/√(2^n)`) and each `s (j+1)` comes from `s j` by the multi-target oracle (the
amplitude at `x` negated once per occurrence of `x` in the marked list) followed by
`apply_diffuser` (every amplitude `a` replaced by `2·mean - a`). -/
theorem C4_run_iterates_k_rounds (m : Machine) (n : Nat) (marked : List Nat)
    (hm : m.holds n) (hne : marked ≠ []) (hin : ∀ t, t ∈ marked → t < 2 ^ n) :
    ∃ (s : Nat → QuantumState ℂ) (p : ℝ),
      (QuantumState.new m n : Except Fault (QuantumState ℂ)) = .ok (QuantumState.zeros n) ∧
      s 0 = initialize_uniform (QuantumState.zeros n) ∧
      (∀ x, x < 2 ^ n → (s 0).get x = ((1 / Real.sqrt ((2 : ℝ) ^ n) : ℝ) : ℂ)) ∧
      (∀ j, j < Nat.floor (Real.pi / 4 * Real.sqrt ((2 : ℝ) ^ n / (marked.length : ℝ))) →
        ∃ t, MultiIndexPhaseOracle.apply marked (s j) = .ok t ∧
          (∀ x, t.get x = (-1) ^ (marked.count x) * (s j).get x) ∧
          s (j + 1) = apply_diffuser t ∧
          ∀ x, x < 2 ^ n → (s (j + 1)).get x =
            2 * ((∑ y in Finset.range (2 ^ n), t.get y) / ((2 ^ n : ℕ) : ℂ)) - t.get x) ∧
      probability_of_any
        (s (Nat.floor (Real.pi / 4 * Real.sqrt ((2 : ℝ) ^ n / (marked.length : ℝ)))))
        marked = .ok p ∧
      p = (marked.map (fun t => Complex.normSq
        ((s (Nat.floor (Real.pi / 4 *
          Real.sqrt ((2 : ℝ) ^ n / (marked.length : ℝ))))).get t))).sum ∧
      Grover.run m ⟨n, marked⟩ =
        .ok ⟨Nat.floor (Real.pi / 4 * Real.sqrt ((2 : ℝ) ^ n / (marked.length : ℝ))), p⟩ := by
  have hlen : (initialize_uniform (QuantumState.zeros n)).amp.length = 2 ^ n := by
    rw [uniform_state]; simp
  -- the states the loop of the run passes through
  have hloop : ∀ j, ∃ r, grover_loop marked j (initialize_uniform (QuantumState.zeros n)) = .ok r ∧
      r.amp.length = 2 ^ n := by
    intro j
    induction j with
    | zero =>
      refine ⟨_, ?_, hlen⟩
      rw [grover_loop, forLoop_unfold, if_neg (by omega)]
    | succ j ih =>
      obtain ⟨r, hr, hrl⟩ := ih
      obtain ⟨t, ht, -, htl, -⟩ := oracle_count marked r (by rw [hrl]; exact hin)
      refine ⟨apply_diffuser t, ?_, ?_⟩
      · rw [grover_loop, forLoop_succ]
        rw [grover_loop] at hr
        rw [hr]
        simp only [Outcome.andThen, grover_round, ht]
      · simp only [apply_diffuser, List.length_map]
        rw [htl, hrl]
  have hsl : ∀ j, (grover_loop marked j
      (initialize_uniform (QuantumState.zeros n))).state.amp.length = 2 ^ n := by
    intro j
    obtain ⟨r, hr, hrl⟩ := hloop j
    rw [hr]; exact hrl
  have hp := probability_of_any_ok
    (grover_loop marked
      (Nat.floor (Real.pi / 4 * Real.sqrt ((2 : ℝ) ^ n / (marked.length : ℝ))))
      (initialize_uniform (QuantumState.zeros n))).state marked
    (by rw [hsl]; exact hin)
  refine ⟨fun j => (grover_loop marked j (initialize_uniform (QuantumState.zeros n))).state,
    _, new_ok m n hm, ?_, ?_, ?_, hp, rfl, ?_⟩
  · show (grover_loop marked 0 (initialize_uniform (QuantumState.zeros n))).state = _
    rw [grover_loop, forLoop_unfold, if_neg (by omega)]
    rfl
  · intro x hx
    show (grover_loop marked 0 (initialize_uniform (QuantumState.zeros n))).state.get x = _
    rw [grover_loop, forLoop_unfold, if_neg (by omega)]
    exact uniform_get n x hx
  · intro j _
    obtain ⟨r, hr, hrl⟩ := hloop j
    obtain ⟨t, ht, -, htl, htc⟩ := oracle_count marked r (by rw [hrl]; exact hin)
    have hnext : grover_loop marked (j + 1) (initialize_uniform (QuantumState.zeros n)) =
        .ok (apply_diffuser t) := by
      rw [grover_loop, forLoop_succ]
      rw [grover_loop] at hr
      rw [hr]
      simp only [Outcome.andThen, grover_round, ht]
    have hsj : (grover_loop marked j (initialize_uniform (QuantumState.zeros n))).state = r := by
      rw [hr]; rfl
    refine ⟨t, ?_, ?_, ?_, ?_⟩
    · show MultiIndexPhaseOracle.apply marked
        (grover_loop marked j (initialize_uniform (QuantumState.zeros n))).state = _
      rw [hsj]; exact ht
    · intro x
      show _ = _ * (grover_loop marked j (initialize_uniform (QuantumState.zeros n))).state.get x
      rw [hsj]; exact htc x
    · show (grover_loop marked (j + 1) (initialize_uniform (QuantumState.zeros n))).state = _
      rw [hnext]
      rfl
    · intro x hx
      show (grover_loop marked (j + 1)
        (initialize_uniform (QuantumState.zeros n))).state.get x = _
      rw [hnext]
      show (apply_diffuser t).get x = _
      have htl2 : t.amp.length = 2 ^ n := by rw [htl, hrl]
      rw [diffuser_get t x (by rw [htl2]; exact hx), amp_sum_eq t, htl2]
  · obtain ⟨r, hr, hrl⟩ := hloop (Grover.iterations (2 ^ n) (max 1 marked.length))
    have hrun := run_eq_of_loop m ⟨n, marked⟩ hm r
      ((marked.map (fun t => Complex.normSq (r.get t))).sum) hr
      (probability_of_any_ok r marked (by rw [hrl]; exact hin))
    rw [iterations_eq n marked hne] at hrun hr
    rw [hrun, hr]
    rfl

theorem C4_run_iterates_k_rounds_witness :
    Nat.floor (Real.pi / 4 * Real.sqrt ((2 : ℝ) ^ 3 / (([5, 6] : List Nat).length : ℝ))) = 1 ∧
    ∃ (s : Nat → QuantumState ℂ) (p : ℝ),
      (QuantumState.new lp64 3 : Except Fault (QuantumState ℂ)) = .ok (QuantumState.zeros 3) ∧
      s 0 = initialize_uniform (QuantumState.zeros 3) ∧
      (∀ x, x < 2 ^ 3 → (s 0).get x = ((1 / Real.sqrt ((2 : ℝ) ^ 3) : ℝ) : ℂ)) ∧
      (∀ j, j < Nat.floor (Real.pi / 4 *
          Real.sqrt ((2 : ℝ) ^ 3 / (([5, 6] : List Nat).length : ℝ))) →
        ∃ t, MultiIndexPhaseOracle.apply [5, 6] (s j) = .ok t ∧
          (∀ x, t.get x = (-1) ^ (([5, 6] : List Nat).count x) * (s j).get x) ∧
          s (j + 1) = apply_diffuser t ∧
          ∀ x, x < 2 ^ 3 → (s (j + 1)).get x =
            2 * ((∑ y in Finset.range (2 ^ 3), t.get y) / ((2 ^ 3 : ℕ) : ℂ)) - t.get x) ∧
      probability_of_any
        (s (Nat.floor (Real.pi / 4 *
          Real.sqrt ((2 : ℝ) ^ 3 / (([5, 6] : List Nat).length : ℝ)))))
        [5, 6] = .ok p ∧
      p = (([5, 6] : List Nat).map (fun t => Complex.normSq
        ((s (Nat.floor (Real.pi / 4 *
          Real.sqrt ((2 : ℝ) ^ 3 / (([5, 6] : List Nat).length : ℝ))))).get t))).sum ∧
      Grover.run lp64 ⟨3, [5, 6]⟩ =
        .ok ⟨Nat.floor (Real.pi / 4 *
          Real.sqrt ((2 : ℝ) ^ 3 / (([5, 6] : List Nat).length : ℝ))), p⟩ :=
  ⟨floor_half_pi, C4_run_iterates_k_rounds lp64 3 [5, 6] (lp64_holds 3 (by decide)) (by decide)
    (by decide)⟩

/-- C4, counterexample: `num_qubits = 63` with the non-empty marked list `[0]`, whose
index is below `2 ^ 63`: `Grover::run` returns no iteration count and no probability,
the constructor throws `std::length_error`. -/
theorem C4_counterexample :
    ([0] : List Nat) ≠ [] ∧ (∀ t, t ∈ [0] → t < 2 ^ 63) ∧
    Grover.run lp64 ⟨63, [0]⟩ = .error .length_error ∧
    ¬ ∃ k p, Grover.run lp64 ⟨63, [0]⟩ = .ok ⟨k, p⟩ := by
  refine ⟨by decide, by decide, run_length_error lp64 [0], ?_⟩
  rintro ⟨k, p, h⟩
  rw [run_length_error] at h
  exact absurd h (by simp)

end QSim
